import Mathlib

/-!
tomatoclock: duration formatting and parsing (`time.cpp`)

A shallow embedding of `tomatoclock::mk_timestr` and
`tomatoclock::parse_time_str`, followed by the properties proved about them.

Conventions of the embedding:

* `uint32_t` values are natural numbers; every machine operation that can
  wrap is written with an explicit `% 4294967296` (`add32`, `sub32`, `mul32`).
* `std::optional<T>` results, together with the two ways a call can fail to
  return one (an exception leaving `std::stoi`, undefined behaviour), are the
  four constructors of `Outcome`.
* A `std::string_view` / `std::string` is a Lean `String`; the scanner works
  on its list of characters.
* The diagnostic written to `stderr` by `mk_timestr` is not modelled.
-/

namespace tomatoclock

/-! ## Machine arithmetic -/

/-- Addition of two `uint32_t` values. -/
def add32 (a b : Nat) : Nat := (a + b) % 4294967296

/-- Subtraction of two `uint32_t` values (wraps below zero). -/
def sub32 (a b : Nat) : Nat := (a + 4294967296 - b % 4294967296) % 4294967296

/-- Multiplication of two `uint32_t` values. -/
def mul32 (a b : Nat) : Nat := (a * b) % 4294967296

/-- The constant `INT32_MAX`, the initial value of `lower` in the parser. -/
def INT32_MAX : Nat := 2147483647

/-- The buffer capacity, `#define BUFSZ 3`. -/
def BUFSZ : Nat := 3

/-! ## Results of a call -/

/-- What a call of one of the two functions does: it returns an optional
holding `a`, it returns `std::nullopt`, a `std::invalid_argument` thrown by
`std::stoi` leaves the function, or the execution has undefined behaviour. -/
inductive Outcome (α : Type) where
  | value (a : α) : Outcome α
  | nullopt : Outcome α
  | invalid_argument : Outcome α
  | undefined : Outcome α
  deriving DecidableEq, Repr

/-- Sequencing: continue with `f` when the first part produced a value. -/
def Outcome.bind {α β : Type} (o : Outcome α) (f : α → Outcome β) : Outcome β :=
  match o with
  | .value a => f a
  | .nullopt => .nullopt
  | .invalid_argument => .invalid_argument
  | .undefined => .undefined

/-! ## Precision model -/

/-- The enumeration `precision_t`. Its declaration is in `time.h`; the
enumerators and their values (SEC = 0, MIN = 1, HOUR = 2) are those the
switches of `time.cpp` name and the specification gives. -/
inductive precision_t where
  | SEC : precision_t
  | MIN : precision_t
  | HOUR : precision_t
  deriving DecidableEq, Repr

/-- The cast `static_cast<uint32_t>(p)`. -/
def precision_t.ord : precision_t → Nat
  | .SEC => 0
  | .MIN => 1
  | .HOUR => 2

/-- The cast `static_cast<precision_t>(n)`: the enumerator whose value is `n`,
when there is one. -/
def precision_t.ofOrd : Nat → Option precision_t
  | 0 => some .SEC
  | 1 => some .MIN
  | 2 => some .HOUR
  | _ => none

/-- The function `to_s`: seconds per unit. -/
def to_s : precision_t → Nat
  | .SEC => 1
  | .MIN => 60
  | .HOUR => 60 * 60

/-- The function `precision_range`: the number of units from `upper` down to
`lower`, computed in `uint32_t`, or nothing when it is not in `1..3`. -/
def precision_range (upper lower : precision_t) : Option Nat :=
  let diff := add32 (sub32 upper.ord lower.ord) 1
  if diff < 1 ∨ diff > 3 then none else some diff

/-! ## Formatter -/

/-- The variables of the loop of `mk_timestr`: the counter `i`, the remaining
seconds `sec` and the contents of the stream `ss`. -/
structure FmtState where
  i : Nat
  sec : Nat
  ss : String
  deriving DecidableEq, Repr

/-- One iteration of the loop of `mk_timestr`, `++i` included. `to_s` has no
return statement for a value that is not an enumerator, hence `undefined`. -/
def mk_timestr_body (range u : Nat) (st : FmtState) : Outcome FmtState :=
  match precision_t.ofOrd (sub32 u st.i) with
  | none => .undefined
  | some p =>
    let d := to_s p
    let v := st.sec / d
    let sec := sub32 st.sec (mul32 v d)
    let ss := st.ss ++ Nat.repr v
    let ss := if st.i ≠ sub32 range 1 then ss ++ ":" else ss
    .value { i := st.i + 1, sec := sec, ss := ss }

/-- The loop `for (int i = 0; i < precision_range; ++i)`, by recursion on the
number `k` of iterations still to run (`precision_range - i`). -/
def mk_timestr_loop (range u : Nat) : Nat → FmtState → Outcome FmtState
  | 0, st => .value st
  | k + 1, st => (mk_timestr_body range u st).bind (mk_timestr_loop range u k)

/-- The function `mk_timestr` (called `format_time` by the tests). -/
def mk_timestr (sec : Nat) (upper lower : precision_t) : Outcome String :=
  match precision_range upper lower with
  | none => .nullopt
  | some range =>
    (mk_timestr_loop range upper.ord range { i := 0, sec := sec, ss := "" }).bind
      fun st => .value st.ss

/-! ## Parser -/

/-- The struct `timefmt_t`. The parser fills both members with
`static_cast<precision_t>` of a `uint32_t` that need not be the value of an
enumerator, so the members are kept as the underlying integers. -/
structure timefmt_t where
  upper : Nat
  lower : Nat
  deriving DecidableEq, Repr

/-- The number denoted by a run of decimal digit characters. -/
def decimalValue (ds : List Char) : Nat :=
  ds.foldl (fun acc c => acc * 10 + (c.toNat - 48)) 0

/-- The call `std::stoi(buffer)` on the NUL-terminated buffer, which holds
digit characters only: the value of the leading digits, or nothing when there
is no digit to convert (`std::invalid_argument` is thrown). -/
def stoi (buffer : List Char) : Option Nat :=
  let ds := buffer.takeWhile Char.isDigit
  if ds = [] then none else some (decimalValue ds)

/-- The variables of the loop of `parse_time_str`. `buffer` lists the
characters written to `buffer[0 .. sp - buffer)`, so `sp - buffer` is its
length. -/
structure ParseState where
  buffer : List Char
  sec : Nat
  upper : Nat
  lower : Nat
  deriving DecidableEq, Repr

/-- The body of the loop of `parse_time_str` for the character `c`. -/
def parse_step (st : ParseState) (c : Char) : Outcome ParseState :=
  if c.isDigit then
    let cond := decide (st.buffer.length > BUFSZ - 1)
    let cond := cond || (st.buffer.length == 0 && decide (c > '5'))
    if cond then .nullopt
    else .value { st with buffer := st.buffer ++ [c] }
  else if st.buffer.length > BUFSZ - 1 then .nullopt
  else if c ≠ 's' ∧ c ≠ 'm' ∧ c ≠ 'h' then .nullopt
  else
    match stoi st.buffer with
    | none => .invalid_argument
    | some v =>
      let sec :=
        if c = 's' then add32 st.sec v
        else if c = 'm' then add32 st.sec (mul32 v 60)
        else add32 st.sec (mul32 (mul32 v 60) 60)
      let pint :=
        if c = 's' then precision_t.SEC.ord
        else if c = 'm' then precision_t.MIN.ord
        else precision_t.HOUR.ord
      if pint > st.upper then
        .value { buffer := [], sec := sec, upper := pint, lower := st.lower }
      else if pint < st.lower then
        .value { buffer := [], sec := sec, upper := st.upper, lower := pint }
      else
        .value { buffer := [], sec := sec, upper := st.upper, lower := st.lower }

/-- The loop `for (auto c : time_str)`; a `return std::nullopt` or an
exception in the body ends it. -/
def parse_loop : List Char → ParseState → Outcome ParseState
  | [], st => .value st
  | c :: cs, st => (parse_step st c).bind (parse_loop cs)

/-- The function `parse_time_str`. -/
def parse_time_str (time_str : String) : Outcome (Nat × timefmt_t) :=
  (parse_loop time_str.data { buffer := [], sec := 0, upper := 0, lower := INT32_MAX }).bind
    fun st => .value (st.sec, { upper := st.upper, lower := st.lower })

/-! ## Specification-side vocabulary: formatter -/

/-- The units of a range, most significant first: the `span` units at the
ordinals `upper`, `upper - 1`, ... -/
def unitsDown (upper : precision_t) (span : Nat) : List precision_t :=
  (List.range span).filterMap fun i => precision_t.ofOrd (upper.ord - i)

/-- The field values the specification describes: the field of a unit is the
seconds remaining after the higher fields, divided by the unit's multiplier. -/
def fieldValues : Nat → List precision_t → List Nat
  | _, [] => []
  | sec, p :: ps => sec / to_s p :: fieldValues (sec - sec / to_s p * to_s p) ps

/-- The number of units of a valid range, `upper.ordinal - lower.ordinal + 1`. -/
def span (upper lower : precision_t) : Nat := upper.ord - lower.ord + 1

/-- The pieces of a text between its `':'` separators. -/
def splitColon : List Char → List (List Char)
  | [] => [[]]
  | c :: cs =>
    if c = ':' then [] :: splitColon cs
    else
      match splitColon cs with
      | [] => [[c]]
      | f :: fs => (c :: f) :: fs

/-- Joining texts with a `':'` between each two of them. -/
def joinColon : List (List Char) → List Char
  | [] => []
  | [f] => f
  | f :: g :: fs => f ++ ':' :: joinColon (g :: fs)

/-- The colon-separated fields of a formatted string, read as decimal numbers. -/
def readFields (out : String) : List Nat :=
  (splitColon out.data).map decimalValue

/-- The seconds a list of field values stands for, each field weighted by the
multiplier of its unit. -/
def weightedSum : List Nat → List precision_t → Nat
  | v :: vs, p :: ps => v * to_s p + weightedSum vs ps
  | _, _ => 0

/-- The text `ds` is a decimal rendering of `n`: a non-empty run of digits
(none of them the separator) whose value is `n`. -/
def DecimalOf (ds : List Char) (n : Nat) : Prop :=
  ds ≠ [] ∧ (∀ c ∈ ds, c.isDigit = true ∧ c ≠ ':') ∧ decimalValue ds = n

/-- Re-reading a formatted string whose first field has the unit `upper`. -/
def reread (upper : precision_t) (out : String) : Nat :=
  weightedSum (readFields out) (unitsDown upper (upper.ord + 1))

/-! ## Specification-side vocabulary: parser -/

/-- One field of a duration literal: a run of digits and the unit character
after it. -/
structure Field where
  digits : List Char
  unit : Char
  deriving DecidableEq, Repr

/-- The unit characters. -/
def isUnit (c : Char) : Bool := c == 's' || c == 'm' || c == 'h'

/-- The ordinal of the precision a unit character stands for. -/
def unitOrd (c : Char) : Nat := if c = 's' then 0 else if c = 'm' then 1 else 2

/-- The multiplier of the precision a unit character stands for. -/
def unitMult (c : Char) : Nat := if c = 's' then 1 else if c = 'm' then 60 else 3600

/-- A well-formed field: one or two decimal digits, the first of them in
`'0'..'5'`, then a unit character. -/
def Field.wf (f : Field) : Bool :=
  (f.digits.length == 1 || f.digits.length == 2) && f.digits.all Char.isDigit &&
    (match f.digits with
     | [] => false
     | c :: _ => decide (c ≤ '5')) &&
    isUnit f.unit

/-- The seconds a field stands for: its value times the multiplier of its unit. -/
def Field.seconds (f : Field) : Nat := decimalValue f.digits * unitMult f.unit

/-- The sum of the seconds of a list of fields. -/
def totalSeconds : List Field → Nat
  | [] => 0
  | f :: fs => f.seconds + totalSeconds fs

/-- The characters of the literal made of the given fields. -/
def literalChars : List Field → List Char
  | [] => []
  | f :: fs => f.digits ++ f.unit :: literalChars fs

/-- The literal made of the given fields. -/
def literal (fs : List Field) : String := ⟨literalChars fs⟩

/-- The fields of an arbitrary text: every non-digit character closes a field
made of the digits read since the previous one (`cur` holds the digits read so
far); digits after the last non-digit character belong to no field. -/
def fieldsOf : List Char → List Char → List Field
  | [], _ => []
  | c :: cs, cur =>
    if c.isDigit then fieldsOf cs (cur ++ [c])
    else { digits := cur, unit := c } :: fieldsOf cs []

/-- The state of the parser after a field has been committed: the effect of
the lines from `std::stoi` to the end of the loop body. -/
def commit (st : ParseState) (f : Field) : ParseState :=
  { buffer := []
    sec := add32 st.sec f.seconds
    upper := if unitOrd f.unit > st.upper then unitOrd f.unit else st.upper
    lower :=
      if unitOrd f.unit > st.upper then st.lower
      else if unitOrd f.unit < st.lower then unitOrd f.unit else st.lower }

/-- What holds of the digit buffer throughout a run of the parser: at most
three characters, all of them digits, the first one at most `'5'`. -/
def BufOK (buf : List Char) : Prop :=
  buf.length ≤ 3 ∧ (∀ d ∈ buf, d.isDigit = true) ∧ ∀ d ∈ buf.head?, d ≤ '5'

/-- What holds of the variables of the parser throughout a run: the seconds
are a `uint32_t`, `upper` is the ordinal of an enumerator, `lower` is unset or
at most `upper`, and the buffer is as `BufOK` says. -/
def ParseInv (st : ParseState) : Prop :=
  st.sec < 4294967296 ∧ st.upper ≤ 2 ∧ (st.lower = INT32_MAX ∨ st.lower ≤ st.upper) ∧
    BufOK st.buffer

/-- The initial values of the variables of `parse_time_str`. -/
def parse_init : ParseState := { buffer := [], sec := 0, upper := 0, lower := INT32_MAX }

end tomatoclock

open tomatoclock

/-! ## Arithmetic and sequencing lemmas -/

theorem sub32_div_mul (sec d : Nat) (hsec : sec < 4294967296) :
    sub32 sec (mul32 (sec / d) d) = sec % d := by
  have h1 : sec / d * d ≤ sec := Nat.div_mul_le_self sec d
  have h2 : sec / d * d + sec % d = sec := by
    rw [Nat.mul_comm]; exact Nat.div_add_mod sec d
  unfold sub32 mul32
  generalize sec / d * d = x at h1 h2
  generalize sec % d = r at h2
  omega

theorem Outcome.bind_value {α β : Type} (a : α) (f : α → Outcome β) :
    (Outcome.value a).bind f = f a := by
  rw [Outcome.bind]

theorem mk_timestr_body_at (range u i sec : Nat) (ss : String) (p : precision_t)
    (hp : precision_t.ofOrd (sub32 u i) = some p) (hsec : sec < 4294967296) :
    mk_timestr_body range u { i := i, sec := sec, ss := ss } =
      .value { i := i + 1, sec := sec % to_s p,
               ss := if i ≠ sub32 range 1 then ss ++ Nat.repr (sec / to_s p) ++ ":"
                     else ss ++ Nat.repr (sec / to_s p) } := by
  unfold mk_timestr_body
  simp only [hp, sub32_div_mul _ _ hsec]

theorem sub_div_mul_eq_mod (sec d : Nat) : sec - sec / d * d = sec % d := by
  have h2 : sec / d * d + sec % d = sec := by
    rw [Nat.mul_comm]; exact Nat.div_add_mod sec d
  omega

/-! ## The formatter in closed form -/

theorem mk_timestr_HOUR_SEC (sec : Nat) (hsec : sec < 4294967296) :
    mk_timestr sec .HOUR .SEC =
      .value (String.intercalate ":"
        [Nat.repr (sec / 3600), Nat.repr (sec % 3600 / 60), Nat.repr (sec % 60)]) := by
  have e31 : sub32 3 1 = 2 := by decide
  have c0 : (0 : Nat) ≠ 2 := by decide
  have c1 : (1 : Nat) ≠ 2 := by decide
  have c2 : ¬ ((2 : Nat) ≠ 2) := by decide
  have h1 : sec % 3600 < 4294967296 := by omega
  have h2 : sec % 3600 % 60 < 4294967296 := by omega
  have h3 : sec % 3600 % 60 = sec % 60 := by omega
  have pr : precision_range .HOUR .SEC = some 3 := by decide
  unfold mk_timestr
  rw [pr]
  simp only [mk_timestr_loop, precision_t.ord]
  rw [mk_timestr_body_at 3 2 0 sec "" .HOUR (by decide) hsec]
  simp only [Outcome.bind_value, to_s, e31]
  rw [mk_timestr_body_at 3 2 1 _ _ .MIN (by decide) h1]
  simp only [Outcome.bind_value, to_s, e31]
  rw [mk_timestr_body_at 3 2 2 _ _ .SEC (by decide) h2]
  simp only [Outcome.bind_value, to_s, e31, h3, String.intercalate, String.intercalate.go,
    Nat.div_one, String.empty_append, Nat.reduceMul, if_pos c0, if_pos c1, if_neg c2]

theorem mk_timestr_HOUR_MIN (sec : Nat) (hsec : sec < 4294967296) :
    mk_timestr sec .HOUR .MIN =
      .value (String.intercalate ":" [Nat.repr (sec / 3600), Nat.repr (sec % 3600 / 60)]) := by
  have e31 : sub32 2 1 = 1 := by decide
  have c0 : (0 : Nat) ≠ 1 := by decide
  have c1 : ¬ ((1 : Nat) ≠ 1) := by decide
  have h1 : sec % 3600 < 4294967296 := by omega
  have pr : precision_range .HOUR .MIN = some 2 := by decide
  unfold mk_timestr
  rw [pr]
  simp only [mk_timestr_loop, precision_t.ord]
  rw [mk_timestr_body_at 2 2 0 sec "" .HOUR (by decide) hsec]
  simp only [Outcome.bind_value, to_s, e31]
  rw [mk_timestr_body_at 2 2 1 _ _ .MIN (by decide) h1]
  simp only [Outcome.bind_value, to_s, e31, String.intercalate, String.intercalate.go,
    Nat.div_one, String.empty_append, Nat.reduceMul, if_pos c0, if_neg c1]

theorem mk_timestr_HOUR_HOUR (sec : Nat) (hsec : sec < 4294967296) :
    mk_timestr sec .HOUR .HOUR =
      .value (String.intercalate ":" [Nat.repr (sec / 3600)]) := by
  have e31 : sub32 1 1 = 0 := by decide
  have c0 : ¬ ((0 : Nat) ≠ 0) := by decide
  have pr : precision_range .HOUR .HOUR = some 1 := by decide
  unfold mk_timestr
  rw [pr]
  simp only [mk_timestr_loop, precision_t.ord]
  rw [mk_timestr_body_at 1 2 0 sec "" .HOUR (by decide) hsec]
  simp only [Outcome.bind_value, to_s, e31, String.intercalate, String.intercalate.go,
    Nat.div_one, String.empty_append, Nat.reduceMul, if_neg c0]

theorem mk_timestr_MIN_SEC (sec : Nat) (hsec : sec < 4294967296) :
    mk_timestr sec .MIN .SEC =
      .value (String.intercalate ":" [Nat.repr (sec / 60), Nat.repr (sec % 60)]) := by
  have e31 : sub32 2 1 = 1 := by decide
  have c0 : (0 : Nat) ≠ 1 := by decide
  have c1 : ¬ ((1 : Nat) ≠ 1) := by decide
  have h1 : sec % 60 < 4294967296 := by omega
  have pr : precision_range .MIN .SEC = some 2 := by decide
  unfold mk_timestr
  rw [pr]
  simp only [mk_timestr_loop, precision_t.ord]
  rw [mk_timestr_body_at 2 1 0 sec "" .MIN (by decide) hsec]
  simp only [Outcome.bind_value, to_s, e31]
  rw [mk_timestr_body_at 2 1 1 _ _ .SEC (by decide) h1]
  simp only [Outcome.bind_value, to_s, e31, String.intercalate, String.intercalate.go,
    Nat.div_one, String.empty_append, Nat.reduceMul, if_pos c0, if_neg c1]

theorem mk_timestr_MIN_MIN (sec : Nat) (hsec : sec < 4294967296) :
    mk_timestr sec .MIN .MIN =
      .value (String.intercalate ":" [Nat.repr (sec / 60)]) := by
  have e31 : sub32 1 1 = 0 := by decide
  have c0 : ¬ ((0 : Nat) ≠ 0) := by decide
  have pr : precision_range .MIN .MIN = some 1 := by decide
  unfold mk_timestr
  rw [pr]
  simp only [mk_timestr_loop, precision_t.ord]
  rw [mk_timestr_body_at 1 1 0 sec "" .MIN (by decide) hsec]
  simp only [Outcome.bind_value, to_s, e31, String.intercalate, String.intercalate.go,
    Nat.div_one, String.empty_append, Nat.reduceMul, if_neg c0]

theorem mk_timestr_SEC_SEC (sec : Nat) (hsec : sec < 4294967296) :
    mk_timestr sec .SEC .SEC =
      .value (String.intercalate ":" [Nat.repr sec]) := by
  have e31 : sub32 1 1 = 0 := by decide
  have c0 : ¬ ((0 : Nat) ≠ 0) := by decide
  have pr : precision_range .SEC .SEC = some 1 := by decide
  unfold mk_timestr
  rw [pr]
  simp only [mk_timestr_loop, precision_t.ord]
  rw [mk_timestr_body_at 1 0 0 sec "" .SEC (by decide) hsec]
  simp only [Outcome.bind_value, to_s, e31, String.intercalate, String.intercalate.go,
    Nat.div_one, String.empty_append, Nat.reduceMul, if_neg c0]

theorem mk_timestr_invalid (sec : Nat) (upper lower : precision_t)
    (h : upper.ord < lower.ord) : mk_timestr sec upper lower = .nullopt := by
  have pr : precision_range upper lower = none := by
    cases upper <;> cases lower <;> first | exact absurd h (by decide) | decide
  unfold mk_timestr
  rw [pr]

theorem mk_timestr_eq (sec : Nat) (upper lower : precision_t) (hsec : sec < 4294967296)
    (h : lower.ord ≤ upper.ord) :
    mk_timestr sec upper lower =
      .value (String.intercalate ":"
        ((fieldValues sec (unitsDown upper (span upper lower))).map Nat.repr)) := by
  have h3 : sec % 3600 % 60 = sec % 60 := by omega
  cases upper <;> cases lower
  case SEC.SEC =>
    have hu : unitsDown .SEC (span .SEC .SEC) = [.SEC] := by decide
    rw [mk_timestr_SEC_SEC sec hsec, hu]
    simp only [fieldValues, List.map, to_s, Nat.div_one]
  case MIN.SEC =>
    have hu : unitsDown .MIN (span .MIN .SEC) = [.MIN, .SEC] := by decide
    rw [mk_timestr_MIN_SEC sec hsec, hu]
    simp only [fieldValues, List.map, to_s, Nat.div_one, sub_div_mul_eq_mod]
  case MIN.MIN =>
    have hu : unitsDown .MIN (span .MIN .MIN) = [.MIN] := by decide
    rw [mk_timestr_MIN_MIN sec hsec, hu]
    simp only [fieldValues, List.map, to_s]
  case HOUR.SEC =>
    have hu : unitsDown .HOUR (span .HOUR .SEC) = [.HOUR, .MIN, .SEC] := by decide
    rw [mk_timestr_HOUR_SEC sec hsec, hu]
    simp only [fieldValues, List.map, to_s, Nat.div_one, sub_div_mul_eq_mod, Nat.reduceMul, h3]
  case HOUR.MIN =>
    have hu : unitsDown .HOUR (span .HOUR .MIN) = [.HOUR, .MIN] := by decide
    rw [mk_timestr_HOUR_MIN sec hsec, hu]
    simp only [fieldValues, List.map, to_s, sub_div_mul_eq_mod, Nat.reduceMul]
  case HOUR.HOUR =>
    have hu : unitsDown .HOUR (span .HOUR .HOUR) = [.HOUR] := by decide
    rw [mk_timestr_HOUR_HOUR sec hsec, hu]
    simp only [fieldValues, List.map, to_s, Nat.reduceMul]
  all_goals exact absurd h (by decide)

/-! ## Decimal rendering -/

theorem digitChar_isDigit (m : Nat) (hm : m < 10) :
    (Nat.digitChar m).isDigit = true ∧ (Nat.digitChar m).toNat - 48 = m ∧
      Nat.digitChar m ≠ ':' := by
  interval_cases m <;> decide

theorem decimalValue_append_singleton (ds : List Char) (c : Char) :
    decimalValue (ds ++ [c]) = decimalValue ds * 10 + (c.toNat - 48) := by
  unfold decimalValue
  rw [List.foldl_append]
  rfl

theorem toDigitsCore_lt_ten (fuel n : Nat) (acc : List Char) (h : n < 10) :
    Nat.toDigitsCore 10 (fuel + 1) n acc = Nat.digitChar n :: acc := by
  have h0 : n / 10 = 0 := Nat.div_eq_of_lt h
  rw [Nat.toDigitsCore]
  simp only [h0, if_true, Nat.mod_eq_of_lt h]

theorem toDigitsCore_ge_ten (fuel n : Nat) (acc : List Char) (h : 10 ≤ n) :
    Nat.toDigitsCore 10 (fuel + 1) n acc =
      Nat.toDigitsCore 10 fuel (n / 10) (Nat.digitChar (n % 10) :: acc) := by
  have h0 : ¬ n / 10 = 0 := by omega
  rw [Nat.toDigitsCore]
  simp only [h0, if_false]

theorem decimalOf_digit (n : Nat) (h : n < 10) : DecimalOf [Nat.digitChar n] n := by
  have hd := digitChar_isDigit n h
  refine ⟨List.cons_ne_nil _ _, ?_, ?_⟩
  · intro c hc
    rw [List.mem_singleton] at hc
    rw [hc]
    exact ⟨hd.1, hd.2.2⟩
  · have hv := decimalValue_append_singleton [] (Nat.digitChar n)
    rw [List.nil_append] at hv
    rw [hv, hd.2.1]
    exact Nat.zero_add n

theorem decimalOf_snoc (ds : List Char) (n : Nat) (h : DecimalOf ds (n / 10)) :
    DecimalOf (ds ++ [Nat.digitChar (n % 10)]) n := by
  have hd := digitChar_isDigit (n % 10) (Nat.mod_lt n (by decide))
  obtain ⟨_, hall, hval⟩ := h
  refine ⟨by simp, ?_, ?_⟩
  · intro c hc
    rcases List.mem_append.mp hc with hc | hc
    · exact hall c hc
    · rw [List.mem_singleton] at hc
      rw [hc]
      exact ⟨hd.1, hd.2.2⟩
  · rw [decimalValue_append_singleton, hval, hd.2.1]
    omega

theorem toDigitsCore_decimal : ∀ (fuel n : Nat) (acc : List Char), n < fuel →
    ∃ ds, DecimalOf ds n ∧ Nat.toDigitsCore 10 fuel n acc = ds ++ acc
  | 0, n, _, h => absurd h (Nat.not_lt_zero n)
  | fuel + 1, n, acc, h => by
    rcases Nat.lt_or_ge n 10 with hlt | hge
    · exact ⟨[Nat.digitChar n], decimalOf_digit n hlt, toDigitsCore_lt_ten fuel n acc hlt⟩
    · obtain ⟨ds, hds, heq⟩ :=
        toDigitsCore_decimal fuel (n / 10) (Nat.digitChar (n % 10) :: acc) (by omega)
      refine ⟨ds ++ [Nat.digitChar (n % 10)], decimalOf_snoc ds n hds, ?_⟩
      rw [toDigitsCore_ge_ten fuel n acc hge, heq, List.append_assoc, List.singleton_append]

theorem repr_decimal (n : Nat) : DecimalOf (Nat.repr n).data n := by
  obtain ⟨ds, hds, heq⟩ := toDigitsCore_decimal (n + 1) n [] (Nat.lt_succ_self n)
  have hdata : (Nat.repr n).data = ds := by
    unfold Nat.repr Nat.toDigits
    rw [heq, List.append_nil]
    rfl
  rw [hdata]
  exact hds

/-! ## Joining and splitting at the separator -/

theorem joinColon_append_cons (a b : List Char) (rest : List (List Char)) :
    joinColon ((a ++ ':' :: b) :: rest) = a ++ ':' :: joinColon (b :: rest) := by
  cases rest with
  | nil => simp only [joinColon]
  | cons g gs => simp only [joinColon, List.append_assoc, List.cons_append]

theorem intercalate_go_data : ∀ (ss : List String) (acc : String),
    (String.intercalate.go acc ":" ss).data = joinColon (acc.data :: ss.map String.data)
  | [], acc => by simp only [String.intercalate.go, List.map, joinColon]
  | b :: rest, acc => by
    rw [String.intercalate.go, intercalate_go_data rest]
    have hc : (":" : String).data = [':'] := rfl
    simp only [String.data_append, List.map, hc, List.append_assoc, List.singleton_append]
    rw [joinColon_append_cons]
    simp only [joinColon]

theorem intercalate_data (ss : List String) :
    (String.intercalate ":" ss).data = joinColon (ss.map String.data) := by
  cases ss with
  | nil => rfl
  | cons a rest => rw [String.intercalate, intercalate_go_data]; rfl

theorem splitColon_append (f : List Char) (hf : ∀ c ∈ f, c ≠ ':') (cs g : List Char)
    (gs : List (List Char)) (h : splitColon cs = g :: gs) :
    splitColon (f ++ cs) = (f ++ g) :: gs := by
  induction f with
  | nil => simpa using h
  | cons c f ih =>
    have hc : c ≠ ':' := hf c (List.mem_cons_self c f)
    have ih2 := ih (fun d hd => hf d (List.mem_cons_of_mem c hd))
    rw [List.cons_append, splitColon, if_neg hc, ih2]
    rfl

theorem splitColon_joinColon : ∀ (fs : List (List Char)), fs ≠ [] →
    (∀ f ∈ fs, ∀ c ∈ f, c ≠ ':') → splitColon (joinColon fs) = fs
  | [], h, _ => absurd rfl h
  | [f], _, hf => by
    have := splitColon_append f (hf f (List.mem_singleton.mpr rfl)) [] [] [] rfl
    simpa [joinColon] using this
  | f :: g :: rest, _, hf => by
    have ih := splitColon_joinColon (g :: rest) (List.cons_ne_nil g rest)
      (fun x hx => hf x (List.mem_cons_of_mem f hx))
    have h2 : splitColon (':' :: joinColon (g :: rest)) = [] :: g :: rest := by
      rw [splitColon, if_pos rfl, ih]
    have := splitColon_append f (hf f (List.mem_cons_self f _)) _ _ _ h2
    simpa [joinColon] using this

theorem count_joinColon : ∀ (fs : List (List Char)), fs ≠ [] →
    (∀ f ∈ fs, ∀ c ∈ f, c ≠ ':') → (joinColon fs).count ':' = fs.length - 1
  | [], h, _ => absurd rfl h
  | [f], _, hf => by
    have h0 : f.count ':' = 0 :=
      List.count_eq_zero.mpr fun hm => hf f (List.mem_singleton.mpr rfl) ':' hm rfl
    simpa [joinColon] using h0
  | f :: g :: rest, _, hf => by
    have ih := count_joinColon (g :: rest) (List.cons_ne_nil g rest)
      (fun x hx => hf x (List.mem_cons_of_mem f hx))
    have h0 : f.count ':' = 0 :=
      List.count_eq_zero.mpr fun hm => hf f (List.mem_cons_self f _) ':' hm rfl
    rw [joinColon, List.count_append, List.count_cons_self, ih, h0]
    simp

/-! ## What a formatted string looks like -/

theorem formatted_split (vals : List Nat) (hne : vals ≠ []) :
    splitColon (String.intercalate ":" (vals.map Nat.repr)).data =
      vals.map fun n => (Nat.repr n).data := by
  rw [intercalate_data, List.map_map]
  apply splitColon_joinColon
  · simpa using hne
  · intro f hf c hc
    obtain ⟨n, _, rfl⟩ := List.mem_map.mp hf
    exact ((repr_decimal n).2.1 c hc).2

theorem formatted_readFields (vals : List Nat) (hne : vals ≠ []) :
    readFields (String.intercalate ":" (vals.map Nat.repr)) = vals := by
  unfold readFields
  rw [formatted_split vals hne, List.map_map]
  have : (decimalValue ∘ fun n => (Nat.repr n).data) = id := by
    funext n
    exact (repr_decimal n).2.2
  rw [this, List.map_id]

theorem formatted_count (vals : List Nat) (hne : vals ≠ []) :
    (String.intercalate ":" (vals.map Nat.repr)).data.count ':' = vals.length - 1 := by
  rw [intercalate_data, List.map_map, count_joinColon]
  · simp
  · simpa using hne
  · intro f hf c hc
    obtain ⟨n, _, rfl⟩ := List.mem_map.mp hf
    exact ((repr_decimal n).2.1 c hc).2

theorem fieldValues_length : ∀ (ps : List precision_t) (sec : Nat),
    (fieldValues sec ps).length = ps.length
  | [], _ => rfl
  | p :: ps, sec => by rw [fieldValues, List.length_cons, fieldValues_length ps, List.length_cons]

theorem unitsDown_length (upper lower : precision_t) (h : lower.ord ≤ upper.ord) :
    (unitsDown upper (span upper lower)).length = span upper lower := by
  cases upper <;> cases lower <;> first | exact absurd h (by decide) | decide

theorem formatted_fields_ne_nil (sec : Nat) (upper lower : precision_t)
    (h : lower.ord ≤ upper.ord) : fieldValues sec (unitsDown upper (span upper lower)) ≠ [] := by
  intro hnil
  have hl := fieldValues_length (unitsDown upper (span upper lower)) sec
  rw [hnil, unitsDown_length upper lower h] at hl
  unfold span at hl
  simp at hl

theorem mk_timestr_loop_sec_lt (range u : Nat) : ∀ (k : Nat) (st st' : FmtState),
    st.sec < 4294967296 → mk_timestr_loop range u k st = .value st' → st'.sec < 4294967296
  | 0, st, st', hs, h => by
    rw [mk_timestr_loop] at h
    cases h
    exact hs
  | k + 1, st, st', _, h => by
    rw [mk_timestr_loop] at h
    cases hb : mk_timestr_body range u st with
    | value st1 =>
      rw [hb, Outcome.bind_value] at h
      refine mk_timestr_loop_sec_lt range u k st1 st' ?_ h
      unfold mk_timestr_body at hb
      cases hp : precision_t.ofOrd (sub32 u st.i) with
      | none => rw [hp] at hb; cases hb
      | some p =>
        rw [hp] at hb
        cases hb
        exact Nat.mod_lt _ (by decide)
    | nullopt => rw [hb] at h; cases h
    | invalid_argument => rw [hb] at h; cases h
    | undefined => rw [hb] at h; cases h

/-! ## Claims about the formatter -/

/-- C1: for a 32-bit `sec` and a range with `upper.ordinal >= lower.ordinal`
the formatter returns the decimal field values joined by `':'`, most
significant first, the field of each unit being the seconds remaining after
the higher fields divided by the unit's multiplier; for (HOUR, SEC) this is
`sec/3600 : (sec mod 3600)/60 : sec mod 60`, for (MIN, SEC) it is
`sec/60 : sec mod 60`; `153` gives `"2:33"` and `8000` gives `"2:13:20"`. -/
theorem C1_format_fields (sec : Nat) (upper lower : precision_t) (hsec : sec < 4294967296)
    (h : lower.ord ≤ upper.ord) :
    mk_timestr sec upper lower =
        .value (String.intercalate ":"
          ((fieldValues sec (unitsDown upper (span upper lower))).map Nat.repr)) ∧
      mk_timestr sec .HOUR .SEC =
        .value (Nat.repr (sec / 3600) ++ ":" ++ Nat.repr (sec % 3600 / 60) ++ ":" ++
          Nat.repr (sec % 60)) ∧
      mk_timestr sec .MIN .SEC = .value (Nat.repr (sec / 60) ++ ":" ++ Nat.repr (sec % 60)) ∧
      mk_timestr 153 .MIN .SEC = .value "2:33" ∧
      mk_timestr 8000 .HOUR .SEC = .value "2:13:20" := by
  refine ⟨mk_timestr_eq sec upper lower hsec h, ?_, ?_, by decide, by decide⟩
  · rw [mk_timestr_HOUR_SEC sec hsec]
    simp only [String.intercalate, String.intercalate.go]
  · rw [mk_timestr_MIN_SEC sec hsec]
    simp only [String.intercalate, String.intercalate.go]

/-- C1 at `sec = 8000`, (HOUR, SEC). -/
theorem C1_format_fields_witness :
    mk_timestr 8000 .HOUR .SEC =
      .value (String.intercalate ":"
        ((fieldValues 8000 (unitsDown .HOUR (span .HOUR .SEC))).map Nat.repr)) :=
  (C1_format_fields 8000 .HOUR .SEC (by decide) (by decide)).1

/-- C4: the formatter returns no result exactly when `upper.ordinal` is below
`lower.ordinal`, and a string for the six other pairs; when `upper` is below
`lower` the 32-bit span is `0` or above `3`. -/
theorem C4_format_nullopt_iff (sec : Nat) (upper lower : precision_t)
    (hsec : sec < 4294967296) :
    (mk_timestr sec upper lower = .nullopt ↔ upper.ord < lower.ord) ∧
      (lower.ord ≤ upper.ord → ∃ out, mk_timestr sec upper lower = .value out) ∧
      (upper.ord < lower.ord →
        add32 (sub32 upper.ord lower.ord) 1 = 0 ∨ add32 (sub32 upper.ord lower.ord) 1 > 3) := by
  refine ⟨⟨fun hn => ?_, mk_timestr_invalid sec upper lower⟩,
    fun h => ⟨_, mk_timestr_eq sec upper lower hsec h⟩, fun h => ?_⟩
  · by_contra hge
    rw [mk_timestr_eq sec upper lower hsec (by omega)] at hn
    cases hn
  · cases upper <;> cases lower <;> first | exact absurd h (by decide) | decide

/-- C4 at `sec = 8000`, (SEC, HOUR). -/
theorem C4_format_nullopt_iff_witness :
    mk_timestr 8000 .SEC .HOUR = .nullopt ↔ precision_t.SEC.ord < precision_t.HOUR.ord :=
  (C4_format_nullopt_iff 8000 .SEC .HOUR (by decide)).1

/-- C5: for a valid range the string returned by the formatter is made of
exactly `span` fields with exactly `span - 1` separators `':'` between them;
every field is a non-empty run of decimal digits (so no separator leads or
trails). -/
theorem C5_format_shape (sec : Nat) (upper lower : precision_t) (hsec : sec < 4294967296)
    (h : lower.ord ≤ upper.ord) :
    ∃ out, mk_timestr sec upper lower = .value out ∧
      out.data = joinColon (splitColon out.data) ∧
      (splitColon out.data).length = span upper lower ∧
      (∀ f ∈ splitColon out.data, f ≠ [] ∧ ∀ c ∈ f, c.isDigit = true) ∧
      out.data.count ':' = span upper lower - 1 := by
  have hne := formatted_fields_ne_nil sec upper lower h
  have hlen : (fieldValues sec (unitsDown upper (span upper lower))).length =
      span upper lower := by
    rw [fieldValues_length, unitsDown_length upper lower h]
  refine ⟨_, mk_timestr_eq sec upper lower hsec h, ?_, ?_, ?_, ?_⟩
  · rw [formatted_split _ hne, intercalate_data, List.map_map]
    rfl
  · rw [formatted_split _ hne, List.length_map, hlen]
  · intro f hf
    rw [formatted_split _ hne] at hf
    obtain ⟨n, _, rfl⟩ := List.mem_map.mp hf
    exact ⟨(repr_decimal n).1, fun c hc => ((repr_decimal n).2.1 c hc).1⟩
  · rw [formatted_count _ hne, hlen]

/-- C5 at `sec = 8000`, (HOUR, SEC). -/
theorem C5_format_shape_witness :
    ∃ out, mk_timestr 8000 .HOUR .SEC = .value out ∧
      out.data = joinColon (splitColon out.data) ∧
      (splitColon out.data).length = span .HOUR .SEC ∧
      (∀ f ∈ splitColon out.data, f ≠ [] ∧ ∀ c ∈ f, c.isDigit = true) ∧
      out.data.count ':' = span .HOUR .SEC - 1 :=
  C5_format_shape 8000 .HOUR .SEC (by decide) (by decide)

theorem mk_timestr_readFields (sec : Nat) (upper lower : precision_t) (hsec : sec < 4294967296)
    (h : lower.ord ≤ upper.ord) :
    ∃ out, mk_timestr sec upper lower = .value out ∧
      readFields out = fieldValues sec (unitsDown upper (span upper lower)) :=
  ⟨_, mk_timestr_eq sec upper lower hsec h,
    formatted_readFields _ (formatted_fields_ne_nil sec upper lower h)⟩

theorem weightedSum_fieldValues (sec : Nat) (upper lower : precision_t)
    (h : lower.ord ≤ upper.ord) :
    weightedSum (fieldValues sec (unitsDown upper (span upper lower)))
      (unitsDown upper (upper.ord + 1)) = sec - sec % to_s lower := by
  cases upper <;> cases lower
  case SEC.SEC =>
    have hu : unitsDown .SEC (span .SEC .SEC) = [.SEC] := by decide
    have hw : unitsDown .SEC (precision_t.SEC.ord + 1) = [.SEC] := by decide
    rw [hu, hw]
    simp only [fieldValues, weightedSum, to_s]
    omega
  case MIN.SEC =>
    have hu : unitsDown .MIN (span .MIN .SEC) = [.MIN, .SEC] := by decide
    have hw : unitsDown .MIN (precision_t.MIN.ord + 1) = [.MIN, .SEC] := by decide
    rw [hu, hw]
    simp only [fieldValues, weightedSum, to_s]
    omega
  case MIN.MIN =>
    have hu : unitsDown .MIN (span .MIN .MIN) = [.MIN] := by decide
    have hw : unitsDown .MIN (precision_t.MIN.ord + 1) = [.MIN, .SEC] := by decide
    rw [hu, hw]
    simp only [fieldValues, weightedSum, to_s]
    omega
  case HOUR.SEC =>
    have hu : unitsDown .HOUR (span .HOUR .SEC) = [.HOUR, .MIN, .SEC] := by decide
    have hw : unitsDown .HOUR (precision_t.HOUR.ord + 1) = [.HOUR, .MIN, .SEC] := by decide
    rw [hu, hw]
    simp only [fieldValues, weightedSum, to_s, Nat.reduceMul]
    omega
  case HOUR.MIN =>
    have hu : unitsDown .HOUR (span .HOUR .MIN) = [.HOUR, .MIN] := by decide
    have hw : unitsDown .HOUR (precision_t.HOUR.ord + 1) = [.HOUR, .MIN, .SEC] := by decide
    rw [hu, hw]
    simp only [fieldValues, weightedSum, to_s, Nat.reduceMul]
    omega
  case HOUR.HOUR =>
    have hu : unitsDown .HOUR (span .HOUR .HOUR) = [.HOUR] := by decide
    have hw : unitsDown .HOUR (precision_t.HOUR.ord + 1) = [.HOUR, .MIN, .SEC] := by decide
    rw [hu, hw]
    simp only [fieldValues, weightedSum, to_s, Nat.reduceMul]
    omega
  all_goals exact absurd h (by decide)

theorem fieldValues_tail_lt (sec : Nat) (upper lower : precision_t) (h : lower.ord ≤ upper.ord) :
    ∀ v ∈ (fieldValues sec (unitsDown upper (span upper lower))).tail, v < 60 := by
  cases upper <;> cases lower
  case SEC.SEC =>
    have hu : unitsDown .SEC (span .SEC .SEC) = [.SEC] := by decide
    rw [hu]
    simp [fieldValues]
  case MIN.SEC =>
    have hu : unitsDown .MIN (span .MIN .SEC) = [.MIN, .SEC] := by decide
    rw [hu]
    simp only [fieldValues, to_s, List.tail, List.mem_singleton, sub_div_mul_eq_mod]
    intro v hv
    omega
  case MIN.MIN =>
    have hu : unitsDown .MIN (span .MIN .MIN) = [.MIN] := by decide
    rw [hu]
    simp [fieldValues]
  case HOUR.SEC =>
    have hu : unitsDown .HOUR (span .HOUR .SEC) = [.HOUR, .MIN, .SEC] := by decide
    rw [hu]
    simp only [fieldValues, to_s, List.tail, List.mem_cons, List.mem_singleton,
      sub_div_mul_eq_mod, Nat.reduceMul, List.not_mem_nil, or_false]
    intro v hv
    rcases hv with hv | hv <;> omega
  case HOUR.MIN =>
    have hu : unitsDown .HOUR (span .HOUR .MIN) = [.HOUR, .MIN] := by decide
    rw [hu]
    simp only [fieldValues, to_s, List.tail, List.mem_singleton, sub_div_mul_eq_mod,
      Nat.reduceMul]
    intro v hv
    omega
  case HOUR.HOUR =>
    have hu : unitsDown .HOUR (span .HOUR .HOUR) = [.HOUR] := by decide
    rw [hu]
    simp [fieldValues]
  all_goals exact absurd h (by decide)

/-- C6: for a valid range the fields of the formatted string, each weighted by
the multiplier of its unit, add up to `sec - sec mod multiplier(lower)`, which
is `sec` itself when `lower` is SEC; and wherever an iteration of the loop
starts, the product `v * d` does not overflow and the subtraction
`sec -= v * d` does not go below zero. -/
theorem C6_format_sum (sec : Nat) (upper lower : precision_t) (hsec : sec < 4294967296)
    (h : lower.ord ≤ upper.ord) :
    ∃ out, mk_timestr sec upper lower = .value out ∧
      reread upper out = sec - sec % to_s lower ∧
      (lower = .SEC → reread upper out = sec) ∧
      (∀ (range i : Nat) (st : FmtState) (p : precision_t),
        mk_timestr_loop range upper.ord i { i := 0, sec := sec, ss := "" } = .value st →
        precision_t.ofOrd (sub32 upper.ord st.i) = some p →
          mul32 (st.sec / to_s p) (to_s p) = st.sec / to_s p * to_s p ∧
          st.sec / to_s p * to_s p ≤ st.sec ∧
          sub32 st.sec (mul32 (st.sec / to_s p) (to_s p)) =
            st.sec - st.sec / to_s p * to_s p) := by
  obtain ⟨out, hout, hread⟩ := mk_timestr_readFields sec upper lower hsec h
  have hsum : reread upper out = sec - sec % to_s lower := by
    unfold reread
    rw [hread, weightedSum_fieldValues sec upper lower h]
  refine ⟨out, hout, hsum, ?_, ?_⟩
  · intro hl
    rw [hsum, hl]
    simp only [to_s]
    omega
  · intro range i st p hst _
    have hlt := mk_timestr_loop_sec_lt range upper.ord i _ st hsec hst
    have hle : st.sec / to_s p * to_s p ≤ st.sec := Nat.div_mul_le_self _ _
    have hm : mul32 (st.sec / to_s p) (to_s p) = st.sec / to_s p * to_s p := by
      unfold mul32
      exact Nat.mod_eq_of_lt (by omega)
    refine ⟨hm, hle, ?_⟩
    rw [sub32_div_mul _ _ hlt, sub_div_mul_eq_mod]

/-- C6 at `sec = 8000`, (HOUR, MIN). -/
theorem C6_format_sum_witness :
    ∃ out, mk_timestr 8000 .HOUR .MIN = .value out ∧
      reread .HOUR out = 8000 - 8000 % to_s .MIN ∧
      (precision_t.MIN = .SEC → reread .HOUR out = 8000) ∧
      (∀ (range i : Nat) (st : FmtState) (p : precision_t),
        mk_timestr_loop range precision_t.HOUR.ord i { i := 0, sec := 8000, ss := "" } =
          .value st →
        precision_t.ofOrd (sub32 precision_t.HOUR.ord st.i) = some p →
          mul32 (st.sec / to_s p) (to_s p) = st.sec / to_s p * to_s p ∧
          st.sec / to_s p * to_s p ≤ st.sec ∧
          sub32 st.sec (mul32 (st.sec / to_s p) (to_s p)) =
            st.sec - st.sec / to_s p * to_s p) :=
  C6_format_sum 8000 .HOUR .MIN (by decide) (by decide)

/-- C13: for a valid range every field of the formatted string other than the
first one is below 60. -/
theorem C13_later_fields_lt_60 (sec : Nat) (upper lower : precision_t)
    (hsec : sec < 4294967296) (h : lower.ord ≤ upper.ord) :
    ∃ out, mk_timestr sec upper lower = .value out ∧
      (readFields out).length = span upper lower ∧
      ∀ v ∈ (readFields out).tail, v < 60 := by
  obtain ⟨out, hout, hread⟩ := mk_timestr_readFields sec upper lower hsec h
  refine ⟨out, hout, ?_, ?_⟩
  · rw [hread, fieldValues_length, unitsDown_length upper lower h]
  · rw [hread]
    exact fieldValues_tail_lt sec upper lower h

/-- C13 at `sec = 360000`, (HOUR, SEC): the first field is 100. -/
theorem C13_later_fields_lt_60_witness :
    ∃ out, mk_timestr 360000 .HOUR .SEC = .value out ∧
      (readFields out).length = span .HOUR .SEC ∧
      ∀ v ∈ (readFields out).tail, v < 60 :=
  C13_later_fields_lt_60 360000 .HOUR .SEC (by decide) (by decide)

/-! ## One step of the parser -/

theorem isUnit_iff (c : Char) : isUnit c = true ↔ c = 's' ∨ c = 'm' ∨ c = 'h' := by
  unfold isUnit
  simp only [Bool.or_eq_true, beq_iff_eq, or_assoc]

theorem isUnit_not_digit (c : Char) (h : isUnit c = true) : c.isDigit = false := by
  rcases (isUnit_iff c).mp h with rfl | rfl | rfl <;> decide

theorem add32_mul32_min (a v : Nat) : add32 a (mul32 v 60) = add32 a (v * 60) := by
  unfold add32 mul32
  omega

theorem add32_mul32_hour (a v : Nat) :
    add32 a (mul32 (mul32 v 60) 60) = add32 a (v * 3600) := by
  unfold add32 mul32
  omega

theorem parse_step_digit (st : ParseState) (c : Char) (hd : c.isDigit = true)
    (hlen : st.buffer.length ≤ 2) (hlead : st.buffer.length = 0 → ¬ c > '5') :
    parse_step st c = .value { st with buffer := st.buffer ++ [c] } := by
  have hcond : (decide (st.buffer.length > BUFSZ - 1) ||
      (st.buffer.length == 0 && decide (c > '5'))) = false := by
    have h1 : decide (st.buffer.length > BUFSZ - 1) = false :=
      decide_eq_false (by unfold BUFSZ; omega)
    rw [h1, Bool.false_or]
    by_cases h0 : st.buffer.length = 0
    · rw [decide_eq_false (hlead h0), Bool.and_false]
    · have : (st.buffer.length == 0) = false := beq_false_of_ne h0
      rw [this, Bool.false_and]
  unfold parse_step
  rw [if_pos hd]
  simp only [hcond, Bool.false_eq_true, if_false]

theorem parse_step_digit_reject (st : ParseState) (c : Char) (hd : c.isDigit = true)
    (h : 2 < st.buffer.length ∨ (st.buffer.length = 0 ∧ c > '5')) :
    parse_step st c = .nullopt := by
  have hcond : (decide (st.buffer.length > BUFSZ - 1) ||
      (st.buffer.length == 0 && decide (c > '5'))) = true := by
    rcases h with h | ⟨h0, h5⟩
    · have h1 : decide (st.buffer.length > BUFSZ - 1) = true :=
        decide_eq_true (by unfold BUFSZ; omega)
      rw [h1, Bool.true_or]
    · have h1 : (st.buffer.length == 0) = true := beq_iff_eq.mpr h0
      rw [h1, decide_eq_true h5, Bool.and_true, Bool.or_true]
  unfold parse_step
  rw [if_pos hd]
  simp only [hcond, if_true]

theorem parse_step_other (st : ParseState) (c : Char) (hd : c.isDigit = false)
    (h : 2 < st.buffer.length ∨ isUnit c = false) :
    parse_step st c = .nullopt := by
  have hd2 : ¬ c.isDigit = true := by rw [hd]; decide
  unfold parse_step
  rw [if_neg hd2]
  by_cases hl : st.buffer.length > BUFSZ - 1
  · rw [if_pos hl]
  · rw [if_neg hl]
    have hu : isUnit c = false := by
      rcases h with h | h
      · unfold BUFSZ at hl; omega
      · exact h
    have hb : c ≠ 's' ∧ c ≠ 'm' ∧ c ≠ 'h' := by
      refine ⟨?_, ?_, ?_⟩ <;> (intro hc; rw [hc] at hu; exact absurd hu (by decide))
    rw [if_pos hb]

theorem stoi_digits (buffer : List Char) (hne : buffer ≠ [])
    (hdig : ∀ d ∈ buffer, d.isDigit = true) : stoi buffer = some (decimalValue buffer) := by
  have ht : buffer.takeWhile Char.isDigit = buffer := List.takeWhile_eq_self_iff.mpr hdig
  unfold stoi
  simp only [ht, hne, if_false]

theorem stoi_nil : stoi [] = none := by decide

theorem parse_step_unit_empty (st : ParseState) (c : Char) (hu : isUnit c = true)
    (hb : st.buffer = []) : parse_step st c = .invalid_argument := by
  have hd2 : ¬ c.isDigit = true := by rw [isUnit_not_digit c hu]; decide
  have hl : ¬ st.buffer.length > BUFSZ - 1 := by rw [hb]; decide
  have hc : ¬ (c ≠ 's' ∧ c ≠ 'm' ∧ c ≠ 'h') := by
    rcases (isUnit_iff c).mp hu with rfl | rfl | rfl <;> decide
  unfold parse_step
  rw [if_neg hd2, if_neg hl, if_neg hc, hb, stoi_nil]

theorem parse_step_unit (st : ParseState) (c : Char) (hu : isUnit c = true)
    (hlen : st.buffer.length ≤ 2) (hne : st.buffer ≠ [])
    (hdig : ∀ d ∈ st.buffer, d.isDigit = true) :
    parse_step st c = .value (commit st { digits := st.buffer, unit := c }) := by
  have hd2 : ¬ c.isDigit = true := by rw [isUnit_not_digit c hu]; decide
  have hl : ¬ st.buffer.length > BUFSZ - 1 := by unfold BUFSZ; omega
  have hc : ¬ (c ≠ 's' ∧ c ≠ 'm' ∧ c ≠ 'h') := by
    rcases (isUnit_iff c).mp hu with rfl | rfl | rfl <;> decide
  unfold parse_step
  rw [if_neg hd2, if_neg hl, if_neg hc, stoi_digits st.buffer hne hdig]
  have hms : ¬ ('m' = 's') := by decide
  have hhs : ¬ ('h' = 's') := by decide
  have hhm : ¬ ('h' = 'm') := by decide
  rcases (isUnit_iff c).mp hu with rfl | rfl | rfl
  · simp only [commit, Field.seconds, unitOrd, unitMult, precision_t.ord, if_true, Nat.mul_one]
    split_ifs <;> rfl
  · simp only [commit, Field.seconds, unitOrd, unitMult, precision_t.ord, if_true, if_neg hms,
      add32_mul32_min]
    split_ifs <;> rfl
  · simp only [commit, Field.seconds, unitOrd, unitMult, precision_t.ord, if_neg hhs,
      if_neg hhm, add32_mul32_hour]
    split_ifs <;> rfl

theorem parse_step_value (st st' : ParseState) (c : Char)
    (hdig : ∀ d ∈ st.buffer, d.isDigit = true) (h : parse_step st c = .value st') :
    (c.isDigit = true ∧ st.buffer.length ≤ 2 ∧ (st.buffer.length = 0 → ¬ c > '5') ∧
        st' = { st with buffer := st.buffer ++ [c] }) ∨
      (isUnit c = true ∧ st.buffer.length ≤ 2 ∧ st.buffer ≠ [] ∧
        st' = commit st { digits := st.buffer, unit := c }) := by
  by_cases hd : c.isDigit = true
  · left
    by_cases hr : 2 < st.buffer.length ∨ (st.buffer.length = 0 ∧ c > '5')
    · rw [parse_step_digit_reject st c hd hr] at h
      cases h
    · have hlen : st.buffer.length ≤ 2 := by
        by_contra hc
        exact hr (Or.inl (by omega))
      have hlead : st.buffer.length = 0 → ¬ c > '5' := fun h0 h5 => hr (Or.inr ⟨h0, h5⟩)
      rw [parse_step_digit st c hd hlen hlead] at h
      cases h
      exact ⟨hd, hlen, hlead, rfl⟩
  · right
    have hd' : c.isDigit = false := by
      cases hx : c.isDigit
      · rfl
      · exact absurd hx hd
    by_cases hr : 2 < st.buffer.length ∨ isUnit c = false
    · rw [parse_step_other st c hd' hr] at h
      cases h
    · have hlen : st.buffer.length ≤ 2 := by
        by_contra hc
        exact hr (Or.inl (by omega))
      have hu : isUnit c = true := by
        cases hx : isUnit c
        · exact absurd (Or.inr hx) hr
        · rfl
      by_cases hb : st.buffer = []
      · rw [parse_step_unit_empty st c hu hb] at h
        cases h
      · rw [parse_step_unit st c hu hlen hb hdig] at h
        cases h
        exact ⟨hu, hlen, hb, rfl⟩

/-! ## The loop of the parser -/

theorem Outcome.bind_assoc {α β γ : Type} (o : Outcome α) (f : α → Outcome β)
    (g : β → Outcome γ) : (o.bind f).bind g = o.bind fun a => (f a).bind g := by
  cases o <;> simp only [Outcome.bind]

theorem parse_loop_append : ∀ (a b : List Char) (st : ParseState),
    parse_loop (a ++ b) st = (parse_loop a st).bind (parse_loop b)
  | [], b, st => by rw [List.nil_append, parse_loop, Outcome.bind_value]
  | c :: a, b, st => by
    rw [List.cons_append, parse_loop, parse_loop, Outcome.bind_assoc]
    congr 1
    funext st1
    exact parse_loop_append a b st1

theorem char_not_gt {a b : Char} (h : a ≤ b) : ¬ a > b := by
  intro hgt
  exact absurd (Nat.lt_of_lt_of_le hgt h) (Nat.lt_irrefl _)

theorem wf_cases (f : Field) (h : f.wf = true) :
    isUnit f.unit = true ∧
      ((∃ a, f.digits = [a] ∧ a.isDigit = true ∧ a ≤ '5') ∨
        ∃ a b, f.digits = [a, b] ∧ a.isDigit = true ∧ b.isDigit = true ∧ a ≤ '5') := by
  obtain ⟨ds, u⟩ := f
  unfold Field.wf at h
  simp only [Bool.and_eq_true, Bool.or_eq_true, beq_iff_eq] at h
  obtain ⟨⟨⟨hlen, hall⟩, hhead⟩, hu⟩ := h
  refine ⟨hu, ?_⟩
  match ds, hlen, hall, hhead with
  | [a], _, hall, hhead =>
    left
    refine ⟨a, rfl, ?_, ?_⟩
    · simpa using hall
    · simpa using hhead
  | [a, b], _, hall, hhead =>
    right
    have hall2 : a.isDigit = true ∧ b.isDigit = true := by simpa using hall
    refine ⟨a, b, rfl, hall2.1, hall2.2, ?_⟩
    simpa using hhead
  | [], hlen, _, _ => simp at hlen
  | _ :: _ :: _ :: _, hlen, _, _ => simp at hlen

theorem commit_buffer_irrelevant (st : ParseState) (buf : List Char) (f : Field) :
    commit { st with buffer := buf } f = commit st f := rfl

theorem parse_loop_field (f : Field) (hf : f.wf = true) (rest : List Char) (st : ParseState)
    (hb : st.buffer = []) :
    parse_loop (f.digits ++ f.unit :: rest) st = parse_loop rest (commit st f) := by
  obtain ⟨hu, hcase⟩ := wf_cases f hf
  obtain ⟨ds, u⟩ := f
  rcases hcase with ⟨a, hds, ha, ha5⟩ | ⟨a, b, hds, ha, hb2, ha5⟩
  · simp only at hds hu
    subst hds
    rw [List.singleton_append, parse_loop,
      parse_step_digit st a ha (by rw [hb]; decide) (fun _ => char_not_gt ha5),
      Outcome.bind_value, parse_loop,
      parse_step_unit _ u hu (by simp [hb]) (by simp [hb]) (by simp [hb, ha]),
      Outcome.bind_value]
    simp only [hb, List.nil_append, commit_buffer_irrelevant]
  · simp only at hds hu
    subst hds
    rw [List.cons_append, List.singleton_append, parse_loop,
      parse_step_digit st a ha (by rw [hb]; decide) (fun _ => char_not_gt ha5),
      Outcome.bind_value, parse_loop,
      parse_step_digit _ b hb2 (by simp [hb]) (by simp [hb]),
      Outcome.bind_value, parse_loop,
      parse_step_unit _ u hu (by simp [hb]) (by simp [hb]) (by simp [hb, ha, hb2]),
      Outcome.bind_value]
    simp only [hb, List.nil_append, List.singleton_append, commit_buffer_irrelevant]

theorem isDigit_toNat_le (b : Char) (h : b.isDigit = true) : b.toNat ≤ 57 := by
  unfold Char.isDigit at h
  simp only [Bool.and_eq_true, decide_eq_true_eq, ge_iff_le] at h
  exact h.2

theorem decimalValue_lt_60 (buf : List Char) (hlen : buf.length ≤ 2)
    (hdig : ∀ d ∈ buf, d.isDigit = true) (hhead : ∀ d ∈ buf.head?, d ≤ '5') :
    decimalValue buf < 60 := by
  match buf, hlen, hdig, hhead with
  | [], _, _, _ => decide
  | [a], _, _, hhead =>
    have h5 : a.toNat ≤ 53 := hhead a (by simp)
    simp only [decimalValue, List.foldl]
    omega
  | [a, b], _, hdig, hhead =>
    have h5 : a.toNat ≤ 53 := hhead a (by simp)
    have h9 : b.toNat ≤ 57 := isDigit_toNat_le b (hdig b (by simp))
    simp only [decimalValue, List.foldl]
    omega
  | _ :: _ :: _ :: _, hlen, _, _ => simp at hlen

theorem wf_value_lt_60 (f : Field) (hf : f.wf = true) : decimalValue f.digits < 60 := by
  obtain ⟨_, hcase⟩ := wf_cases f hf
  rcases hcase with ⟨a, hds, ha, ha5⟩ | ⟨a, b, hds, ha, hb, ha5⟩
  · rw [hds]
    exact decimalValue_lt_60 [a] (by simp) (by simp [ha]) (by simpa using ha5)
  · rw [hds]
    exact decimalValue_lt_60 [a, b] (by simp) (by simp [ha, hb]) (by simpa using ha5)

theorem unitMult_le (c : Char) : unitMult c ≤ 3600 := by
  unfold unitMult
  split_ifs <;> omega

theorem unitOrd_le (c : Char) : unitOrd c ≤ 2 := by
  unfold unitOrd
  split_ifs <;> omega

theorem wf_seconds_le (f : Field) (hf : f.wf = true) : f.seconds ≤ 59 * 3600 := by
  have h1 := wf_value_lt_60 f hf
  have h2 := unitMult_le f.unit
  unfold Field.seconds
  calc decimalValue f.digits * unitMult f.unit ≤ 59 * 3600 :=
    Nat.mul_le_mul (by omega) h2

/-! ## Literals made of well-formed fields -/

theorem parse_loop_literal : ∀ (fs : List Field) (st : ParseState), st.buffer = [] →
    (∀ f ∈ fs, f.wf = true) → parse_loop (literalChars fs) st = .value (fs.foldl commit st)
  | [], st, _, _ => by rw [literalChars, parse_loop, List.foldl_nil]
  | f :: fs, st, hb, hwf => by
    rw [literalChars, parse_loop_field f (hwf f (List.mem_cons_self f fs)) _ st hb,
      List.foldl_cons]
    exact parse_loop_literal fs (commit st f) rfl
      (fun g hg => hwf g (List.mem_cons_of_mem f hg))

theorem foldl_commit_sec : ∀ (fs : List Field) (st : ParseState), st.sec < 4294967296 →
    (fs.foldl commit st).sec = (st.sec + totalSeconds fs) % 4294967296
  | [], st, h => by
    rw [List.foldl_nil, totalSeconds, Nat.add_zero, Nat.mod_eq_of_lt h]
  | f :: fs, st, _ => by
    have hc : (commit st f).sec = (st.sec + f.seconds) % 4294967296 := rfl
    rw [List.foldl_cons, foldl_commit_sec fs (commit st f) (by rw [hc]; omega), hc,
      totalSeconds]
    omega

theorem parse_time_str_literal (fs : List Field) (hwf : ∀ f ∈ fs, f.wf = true) :
    parse_time_str (literal fs) =
      .value (totalSeconds fs % 4294967296,
        { upper := (fs.foldl commit parse_init).upper,
          lower := (fs.foldl commit parse_init).lower }) := by
  have h := parse_loop_literal fs parse_init rfl hwf
  have hs := foldl_commit_sec fs parse_init (by decide)
  have h0 : parse_init.sec = 0 := rfl
  rw [h0, Nat.zero_add] at hs
  unfold parse_time_str
  have hd : (literal fs).data = literalChars fs := rfl
  rw [hd]
  unfold parse_init at h
  rw [h, Outcome.bind_value]
  unfold parse_init at hs
  rw [hs]
  rfl

theorem foldl_commit_descending : ∀ (mid : List Field) (fl : Field) (st : ParseState),
    List.Pairwise (fun f g => unitOrd f.unit > unitOrd g.unit) (mid ++ [fl]) →
    (∀ x ∈ mid ++ [fl], unitOrd x.unit ≤ st.upper) →
    (∀ x ∈ mid ++ [fl], unitOrd x.unit < st.lower) →
    ((mid ++ [fl]).foldl commit st).upper = st.upper ∧
      ((mid ++ [fl]).foldl commit st).lower = unitOrd fl.unit
  | [], fl, st, _, hu, hl => by
    have h1 : unitOrd fl.unit ≤ st.upper := hu fl (by simp)
    have h2 : unitOrd fl.unit < st.lower := hl fl (by simp)
    simp only [List.nil_append, List.foldl_cons, List.foldl_nil, commit]
    rw [if_neg (by omega), if_neg (by omega), if_pos h2]
    exact ⟨rfl, rfl⟩
  | g :: mid, fl, st, hp, hu, hl => by
    have h1 : unitOrd g.unit ≤ st.upper := hu g (by simp)
    have h2 : unitOrd g.unit < st.lower := hl g (by simp)
    rw [List.cons_append, List.pairwise_cons] at hp
    have hup : (commit st g).upper = st.upper := by
      simp only [commit]
      rw [if_neg (by omega)]
    have hlo : (commit st g).lower = unitOrd g.unit := by
      simp only [commit]
      rw [if_neg (by omega), if_pos h2]
    have ih := foldl_commit_descending mid fl (commit st g) hp.2
      (fun x hx => by rw [hup]; exact hu x (List.mem_cons_of_mem g hx))
      (fun x hx => by rw [hlo]; exact hp.1 x hx)
    rw [List.cons_append, List.foldl_cons]
    rw [hup] at ih
    exact ih

/-! ## Claims about literals made of well-formed fields -/

/-- C2: for a literal made of one or more well-formed fields (one or two
digits, the first at most `'5'`, then `s`, `m` or `h`), in any order of the
units, `parse_time_str` returns a result whose seconds are the sum of the
field values times their multipliers, modulo `2^32`; `"20m10s"` gives 1210
and `"1h30m20s"` gives 5420. -/
theorem C2_parse_seconds (fs : List Field) (_hne : fs ≠ []) (hwf : ∀ f ∈ fs, f.wf = true) :
    (∃ fmt, parse_time_str (literal fs) = .value (totalSeconds fs % 4294967296, fmt)) ∧
      (∃ fmt, parse_time_str "20m10s" = .value (1210, fmt)) ∧
      ∃ fmt, parse_time_str "1h30m20s" = .value (5420, fmt) :=
  ⟨⟨_, parse_time_str_literal fs hwf⟩, ⟨⟨1, 0⟩, by decide⟩, ⟨⟨2, 0⟩, by decide⟩⟩

/-- C2 at the literal `"10s20m"`. -/
theorem C2_parse_seconds_witness :
    ∃ fmt, parse_time_str "10s20m" = .value (1210, fmt) :=
  (C2_parse_seconds [⟨['1', '0'], 's'⟩, ⟨['2', '0'], 'm'⟩] (by decide) (by decide)).1

/-- C3: for a literal of two or more well-formed fields whose units are
strictly decreasing in significance, the range returned by `parse_time_str`
has `upper` = the unit of the first field and `lower` = the unit of the last
field; `"20m10s"` gives (MIN, SEC) and `"1h30m20s"` gives (HOUR, SEC). -/
theorem C3_parse_range_descending (f1 fl : Field) (mid : List Field)
    (hwf : ∀ f ∈ f1 :: (mid ++ [fl]), f.wf = true)
    (hdec : List.Pairwise (fun f g => unitOrd f.unit > unitOrd g.unit) (f1 :: (mid ++ [fl]))) :
    (∃ sec, parse_time_str (literal (f1 :: (mid ++ [fl]))) =
        .value (sec, { upper := unitOrd f1.unit, lower := unitOrd fl.unit })) ∧
      (∃ sec, parse_time_str "20m10s" =
        .value (sec, { upper := precision_t.MIN.ord, lower := precision_t.SEC.ord })) ∧
      ∃ sec, parse_time_str "1h30m20s" =
        .value (sec, { upper := precision_t.HOUR.ord, lower := precision_t.SEC.ord }) := by
  refine ⟨⟨totalSeconds (f1 :: (mid ++ [fl])) % 4294967296, ?_⟩, ⟨1210, by decide⟩,
    ⟨5420, by decide⟩⟩
  rw [parse_time_str_literal _ hwf, List.foldl_cons]
  rw [List.pairwise_cons] at hdec
  have hgt : unitOrd f1.unit > 0 := by
    have := hdec.1 fl (by simp)
    omega
  have hup : (commit parse_init f1).upper = unitOrd f1.unit := by
    simp only [commit, parse_init]
    rw [if_pos hgt]
  have hlo : (commit parse_init f1).lower = INT32_MAX := by
    simp only [commit, parse_init]
    rw [if_pos hgt]
  have h := foldl_commit_descending mid fl (commit parse_init f1) hdec.2
    (fun x hx => by rw [hup]; exact Nat.le_of_lt (hdec.1 x hx))
    (fun x hx => by
      rw [hlo]
      have := unitOrd_le x.unit
      unfold INT32_MAX
      omega)
  rw [h.1, h.2, hup]

/-- C3 at the literal `"1h20s"`. -/
theorem C3_parse_range_descending_witness :
    ∃ sec, parse_time_str "1h20s" = .value (sec, { upper := 2, lower := 0 }) :=
  (C3_parse_range_descending ⟨['1'], 'h'⟩ ⟨['2', '0'], 's'⟩ [] (by decide) (by decide)).1

/-! ## Invariants of the parser -/

theorem Outcome.bind_eq_value {α β : Type} (o : Outcome α) (f : α → Outcome β) (b : β)
    (h : o.bind f = .value b) : ∃ a, o = .value a ∧ f a = .value b := by
  cases o with
  | value a => exact ⟨a, rfl, by rw [Outcome.bind_value] at h; exact h⟩
  | nullopt => rw [Outcome.bind] at h; cases h
  | invalid_argument => rw [Outcome.bind] at h; cases h
  | undefined => rw [Outcome.bind] at h; cases h

theorem parse_init_inv : ParseInv parse_init := by
  refine ⟨by decide, by decide, Or.inl rfl, by decide, ?_, ?_⟩
  · intro d hd
    cases hd
  · intro d hd
    cases hd

theorem parse_step_bufOK (st st' : ParseState) (c : Char) (hbuf : BufOK st.buffer)
    (h : parse_step st c = .value st') : BufOK st'.buffer := by
  obtain ⟨hlen, hdig, hhead⟩ := hbuf
  rcases parse_step_value st st' c hdig h with ⟨hd, hl2, hlead, rfl⟩ | ⟨hu, hl2, hne, rfl⟩
  · refine ⟨?_, ?_, ?_⟩
    · simp only [List.length_append, List.length_singleton]
      omega
    · intro d hmem
      rcases List.mem_append.mp hmem with hm | hm
      · exact hdig d hm
      · rw [List.mem_singleton] at hm
        rw [hm]
        exact hd
    · intro d hmem
      cases hb : st.buffer with
      | nil =>
        rw [hb] at hmem
        simp only [List.nil_append, List.head?_cons, Option.mem_def, Option.some.injEq] at hmem
        rw [← hmem]
        exact Nat.le_of_not_lt (hlead (by rw [hb]; rfl))
      | cons x xs =>
        rw [hb] at hmem hhead
        simp only [List.cons_append, List.head?_cons, Option.mem_def, Option.some.injEq] at hmem
        exact hhead d (by simp [hmem])
  · refine ⟨Nat.zero_le 3, ?_, ?_⟩
    · intro d hd
      cases hd
    · intro d hd
      cases hd

theorem parse_step_inv (st st' : ParseState) (c : Char) (hinv : ParseInv st)
    (h : parse_step st c = .value st') : ParseInv st' := by
  obtain ⟨hsec, hup, hlo, hbuf⟩ := hinv
  have hbuf' := parse_step_bufOK st st' c hbuf h
  rcases parse_step_value st st' c hbuf.2.1 h with ⟨_, _, _, rfl⟩ | ⟨_, _, _, rfl⟩
  · exact ⟨hsec, hup, hlo, hbuf'⟩
  · have ho := unitOrd_le c
    refine ⟨Nat.mod_lt _ (by decide), ?_, ?_, hbuf'⟩
    · simp only [commit]
      split_ifs <;> omega
    · simp only [commit]
      split_ifs <;> omega

theorem parse_loop_inv : ∀ (cs : List Char) (st st' : ParseState), ParseInv st →
    parse_loop cs st = .value st' → ParseInv st'
  | [], st, st', hinv, h => by
    rw [parse_loop] at h
    cases h
    exact hinv
  | c :: cs, st, st', hinv, h => by
    rw [parse_loop] at h
    obtain ⟨st1, h1, h2⟩ := Outcome.bind_eq_value _ _ _ h
    exact parse_loop_inv cs st1 st' (parse_step_inv st st1 c hinv h1) h2

theorem parse_time_str_value (s : String) (sec : Nat) (fmt : timefmt_t)
    (h : parse_time_str s = .value (sec, fmt)) :
    ∃ st, parse_loop s.data parse_init = .value st ∧ st.sec = sec ∧ st.upper = fmt.upper ∧
      st.lower = fmt.lower := by
  unfold parse_time_str at h
  obtain ⟨st, h1, h2⟩ := Outcome.bind_eq_value _ _ _ h
  refine ⟨st, h1, ?_⟩
  cases h2
  exact ⟨rfl, rfl, rfl⟩

theorem parse_time_str_inv (s : String) (sec : Nat) (fmt : timefmt_t)
    (h : parse_time_str s = .value (sec, fmt)) :
    sec < 4294967296 ∧ fmt.upper ≤ 2 ∧ (fmt.lower = INT32_MAX ∨ fmt.lower ≤ fmt.upper) := by
  obtain ⟨st, h1, rfl, hu, hl⟩ := parse_time_str_value s sec fmt h
  obtain ⟨hsec, hup, hlo, _⟩ := parse_loop_inv _ _ _ parse_init_inv h1
  rw [hu] at hup hlo
  rw [hl] at hlo
  exact ⟨hsec, hup, hlo⟩

theorem ofOrd_of_le (n : Nat) (h : n ≤ 2) : ∃ p, precision_t.ofOrd n = some p ∧ p.ord = n := by
  interval_cases n
  · exact ⟨.SEC, rfl, rfl⟩
  · exact ⟨.MIN, rfl, rfl⟩
  · exact ⟨.HOUR, rfl, rfl⟩

/-! ## Claims relating the parser and the formatter -/

/-- C9: whenever `parse_time_str` returns `(sec, upper, lower)` with
`lower` = SEC, the formatter applied to `(sec, upper, SEC)` returns a string,
and re-reading that string (each colon-separated field as a decimal number
weighted by the multiplier of its unit, from `upper` down to SEC) gives `sec`. -/
theorem C9_round_trip (s : String) (sec upper : Nat)
    (h : parse_time_str s = .value (sec, { upper := upper, lower := precision_t.SEC.ord })) :
    ∃ pu out, precision_t.ofOrd upper = some pu ∧ mk_timestr sec pu .SEC = .value out ∧
      reread pu out = sec := by
  obtain ⟨hsec, hup, _⟩ := parse_time_str_inv s sec _ h
  obtain ⟨pu, hpu, _⟩ := ofOrd_of_le upper hup
  have hle : precision_t.SEC.ord ≤ pu.ord := Nat.zero_le _
  obtain ⟨out, hout, hread⟩ := mk_timestr_readFields sec pu .SEC hsec hle
  refine ⟨pu, out, hpu, hout, ?_⟩
  unfold reread
  rw [hread, weightedSum_fieldValues sec pu .SEC hle]
  simp only [to_s]
  omega

/-- C9 at the literal `"1h30m20s"`. -/
theorem C9_round_trip_witness :
    ∃ pu out, precision_t.ofOrd 2 = some pu ∧ mk_timestr 5420 pu .SEC = .value out ∧
      reread pu out = 5420 :=
  C9_round_trip "1h30m20s" 5420 2 (by decide)

/-- C20: whenever `parse_time_str` returns a result whose `lower` is not the
unset sentinel, `lower <= upper`, both are ordinals of enumerators, and the
formatter applied to the parsed `(sec, upper, lower)` returns a string. -/
theorem C20_parsed_range_valid (s : String) (sec upper lower : Nat)
    (h : parse_time_str s = .value (sec, { upper := upper, lower := lower }))
    (hset : lower ≠ INT32_MAX) :
    lower ≤ upper ∧
      ∃ pu pl out, precision_t.ofOrd upper = some pu ∧ precision_t.ofOrd lower = some pl ∧
        mk_timestr sec pu pl = .value out := by
  obtain ⟨hsec, hup, hlo⟩ := parse_time_str_inv s sec _ h
  have hle : lower ≤ upper := by
    rcases hlo with hlo | hlo
    · exact absurd hlo hset
    · exact hlo
  obtain ⟨pu, hpu, hpuo⟩ := ofOrd_of_le upper hup
  obtain ⟨pl, hpl, hplo⟩ := ofOrd_of_le lower (by simp only at hle hup; omega)
  exact ⟨hle, pu, pl, _, hpu, hpl, mk_timestr_eq sec pu pl hsec (by rw [hpuo, hplo]; exact hle)⟩

/-- C20 at the literal `"20m10s"`. -/
theorem C20_parsed_range_valid_witness :
    (0 : Nat) ≤ 1 ∧
      ∃ pu pl out, precision_t.ofOrd 1 = some pu ∧ precision_t.ofOrd 0 = some pl ∧
        mk_timestr 1210 pu pl = .value out :=
  C20_parsed_range_valid "20m10s" 1210 1 0 (by decide) (by decide)

/-! ## Claims about single fields and the empty input -/

/-- C10, as the code behaves: the empty string is not a parse failure. -/
theorem C10_empty_counterexample : ¬ (parse_time_str "" = .nullopt) := by decide

/-- C10, amended: `parse_time_str` applied to the empty string returns a
result: 0 seconds, `upper` = SEC, and `lower` left at the unset sentinel. -/
theorem C10_empty_returns_value :
    parse_time_str "" =
      .value (0, { upper := precision_t.SEC.ord, lower := INT32_MAX }) := by decide

theorem parse_time_str_single (f : Field) (hf : f.wf = true) :
    parse_time_str (literal [f]) =
      .value (f.seconds,
        { upper := (commit parse_init f).upper, lower := (commit parse_init f).lower }) := by
  have hwf : ∀ g ∈ [f], g.wf = true := by
    intro g hg
    rw [List.mem_singleton] at hg
    rw [hg]
    exact hf
  have hle := wf_seconds_le f hf
  rw [parse_time_str_literal [f] hwf]
  simp only [totalSeconds, Nat.add_zero, List.foldl_cons, List.foldl_nil]
  rw [Nat.mod_eq_of_lt (by omega)]

/-- C14: for a single well-formed field whose unit is `m` or `h`,
`parse_time_str` returns the field's seconds with `upper` = that unit, and
`lower` is left at the unset sentinel `INT32_MAX`, which is the ordinal of no
precision. -/
theorem C14_single_field_min_hour (f : Field) (hf : f.wf = true)
    (hu : f.unit = 'm' ∨ f.unit = 'h') :
    parse_time_str (literal [f]) =
        .value (decimalValue f.digits * unitMult f.unit,
          { upper := unitOrd f.unit, lower := INT32_MAX }) ∧
      precision_t.ofOrd INT32_MAX = none := by
  refine ⟨?_, by decide⟩
  have hgt : unitOrd f.unit > parse_init.upper := by
    rcases hu with hu | hu <;> rw [hu] <;> decide
  rw [parse_time_str_single f hf]
  simp only [commit, if_pos hgt]
  rfl

/-- C14 at the literal `"30m"`. -/
theorem C14_single_field_min_hour_witness :
    parse_time_str "30m" = .value (1800, { upper := 1, lower := INT32_MAX }) ∧
      precision_t.ofOrd INT32_MAX = none :=
  C14_single_field_min_hour ⟨['3', '0'], 'm'⟩ (by decide) (by decide)

/-- C15, as the code behaves: for `"30s"` the second branch of the ordinal
tracking fires and `lower` is SEC, not the unset sentinel. -/
theorem C15_single_sec_counterexample :
    parse_time_str "30s" =
        .value (30, { upper := precision_t.SEC.ord, lower := precision_t.SEC.ord }) ∧
      ¬ ∃ sec upper, parse_time_str "30s" =
        .value (sec, { upper := upper, lower := INT32_MAX }) := by
  refine ⟨by decide, ?_⟩
  rintro ⟨sec, upper, h⟩
  have h30 : parse_time_str "30s" = .value (30, { upper := 0, lower := 0 }) := by decide
  rw [h30] at h
  injection h with h
  injection h with _ h
  injection h with _ h
  exact absurd h (by decide)

/-- C15, amended: for a single well-formed field whose unit is `s`, the
field's ordinal equals the initial `upper` 0, so the first branch of the
ordinal tracking does not fire, but the second one does (0 is below the
sentinel): `parse_time_str` returns the field's value with `upper` = SEC and
`lower` = SEC. -/
theorem C15_single_field_sec (f : Field) (hf : f.wf = true) (hu : f.unit = 's') :
    ¬ (unitOrd f.unit > parse_init.upper) ∧ unitOrd f.unit < parse_init.lower ∧
      parse_time_str (literal [f]) =
        .value (decimalValue f.digits,
          { upper := precision_t.SEC.ord, lower := precision_t.SEC.ord }) := by
  have h1 : ¬ (unitOrd f.unit > parse_init.upper) := by rw [hu]; decide
  have h2 : unitOrd f.unit < parse_init.lower := by rw [hu]; decide
  refine ⟨h1, h2, ?_⟩
  rw [parse_time_str_single f hf]
  simp only [commit, if_neg h1, if_pos h2, Field.seconds]
  rw [hu]
  simp only [unitMult, unitOrd, if_true, Nat.mul_one]
  rfl

/-- C15 (amended) at the literal `"30s"`. -/
theorem C15_single_field_sec_witness :
    ¬ (unitOrd 's' > parse_init.upper) ∧ unitOrd 's' < parse_init.lower ∧
      parse_time_str "30s" = .value (30, { upper := 0, lower := 0 }) :=
  C15_single_field_sec ⟨['3', '0'], 's'⟩ (by decide) (by decide)

/-! ## Rejected inputs -/

theorem parse_step_digit_outcome (st : ParseState) (c : Char) (hd : c.isDigit = true) :
    parse_step st c = .nullopt ∨
      parse_step st c = .value { st with buffer := st.buffer ++ [c] } := by
  by_cases hr : 2 < st.buffer.length ∨ (st.buffer.length = 0 ∧ c > '5')
  · exact Or.inl (parse_step_digit_reject st c hd hr)
  · right
    exact parse_step_digit st c hd (by by_contra hc; exact hr (Or.inl (by omega)))
      (fun h0 h5 => hr (Or.inr ⟨h0, h5⟩))

theorem parse_step_full (st : ParseState) (c : Char) (h : 2 < st.buffer.length) :
    parse_step st c = .nullopt := by
  cases hd : c.isDigit
  · exact parse_step_other st c hd (Or.inl h)
  · exact parse_step_digit_reject st c hd (Or.inl h)

theorem parse_loop_three_digits (d1 d2 d3 c : Char) (post : List Char) (st : ParseState)
    (h1 : d1.isDigit = true) (h2 : d2.isDigit = true) (h3 : d3.isDigit = true) :
    parse_loop (d1 :: d2 :: d3 :: c :: post) st = .nullopt := by
  rw [parse_loop]
  rcases parse_step_digit_outcome st d1 h1 with e1 | e1
  · rw [e1, Outcome.bind]
  rw [e1, Outcome.bind_value, parse_loop]
  rcases parse_step_digit_outcome _ d2 h2 with e2 | e2
  · rw [e2, Outcome.bind]
  rw [e2, Outcome.bind_value, parse_loop]
  rcases parse_step_digit_outcome _ d3 h3 with e3 | e3
  · rw [e3, Outcome.bind]
  rw [e3, Outcome.bind_value, parse_loop, parse_step_full _ c, Outcome.bind]
  simp only [List.length_append, List.length_singleton]
  omega

theorem parse_step_ne_undefined (st : ParseState) (c : Char) :
    parse_step st c ≠ .undefined := by
  intro h
  cases hd : c.isDigit
  · by_cases hr : 2 < st.buffer.length ∨ isUnit c = false
    · rw [parse_step_other st c hd hr] at h
      cases h
    · have hu : isUnit c = true := by
        cases hx : isUnit c
        · exact absurd (Or.inr hx) hr
        · rfl
      have hd2 : ¬ c.isDigit = true := by rw [hd]; decide
      have hl : ¬ st.buffer.length > BUFSZ - 1 := by
        unfold BUFSZ
        intro hc
        exact hr (Or.inl (by omega))
      have hc : ¬ (c ≠ 's' ∧ c ≠ 'm' ∧ c ≠ 'h') := by
        rcases (isUnit_iff c).mp hu with rfl | rfl | rfl <;> decide
      unfold parse_step at h
      rw [if_neg hd2, if_neg hl, if_neg hc] at h
      cases hs : stoi st.buffer with
      | none => rw [hs] at h; cases h
      | some v =>
        rw [hs] at h
        simp only at h
        split_ifs at h
  · rcases parse_step_digit_outcome st c hd with e | e
    · rw [e] at h; cases h
    · rw [e] at h; cases h

theorem parse_loop_ne_undefined : ∀ (cs : List Char) (st : ParseState),
    parse_loop cs st ≠ .undefined
  | [], st => by rw [parse_loop]; intro h; cases h
  | c :: cs, st => by
    rw [parse_loop]
    cases hs : parse_step st c with
    | value st1 => rw [Outcome.bind_value]; exact parse_loop_ne_undefined cs st1
    | nullopt => rw [Outcome.bind]; intro h; cases h
    | invalid_argument => rw [Outcome.bind]; intro h; cases h
    | undefined => exact absurd hs (parse_step_ne_undefined st c)

/-- C7, at the input `"sx"`: the unit character with no digit before it makes
`std::stoi` throw before the character `x` is reached, so the call does not
return `std::nullopt`. -/
theorem C7_bad_char_after_empty_field :
    parse_time_str "sx" = .invalid_argument ∧ ¬ (parse_time_str "sx" = .nullopt) := by
  decide

/-- C8, at the input `"s6"`: the unit character with no digit before it makes
`std::stoi` throw before the leading digit `6` is reached, so the call does
not return `std::nullopt`. -/
theorem C8_lead_digit_after_empty_field :
    parse_time_str "s6" = .invalid_argument ∧ ¬ (parse_time_str "s6" = .nullopt) := by
  decide

/-- C11, as the code behaves: a run of three digits that ends the input is
accepted. -/
theorem C11_three_digits_counterexample :
    parse_time_str "123" = .value (0, { upper := 0, lower := INT32_MAX }) ∧
      parse_time_str "1h123" = .value (3600, { upper := 2, lower := INT32_MAX }) := by
  decide

/-- C11, amended: `parse_time_str` returns no result for every input in which
three consecutive digits are followed by at least one more character, as long
as `std::stoi` did not throw in the text before them. -/
theorem C11_three_digits_then_more (pre post : List Char) (d1 d2 d3 c : Char)
    (h1 : d1.isDigit = true) (h2 : d2.isDigit = true) (h3 : d3.isDigit = true)
    (hpre : parse_time_str ⟨pre⟩ ≠ .invalid_argument) :
    parse_time_str ⟨pre ++ d1 :: d2 :: d3 :: c :: post⟩ = .nullopt := by
  unfold parse_time_str at hpre ⊢
  simp only at hpre ⊢
  rw [parse_loop_append]
  cases hp : parse_loop pre { buffer := [], sec := 0, upper := 0, lower := INT32_MAX } with
  | value st =>
    rw [Outcome.bind_value, parse_loop_three_digits d1 d2 d3 c post st h1 h2 h3, Outcome.bind]
  | nullopt => simp only [Outcome.bind]
  | invalid_argument =>
    rw [hp] at hpre
    simp only [Outcome.bind] at hpre
    exact absurd rfl hpre
  | undefined => exact absurd hp (parse_loop_ne_undefined pre _)

/-- C11 (amended) at the input `"1h123m"`. -/
theorem C11_three_digits_then_more_witness : parse_time_str "1h123m" = .nullopt :=
  C11_three_digits_then_more ['1', 'h'] [] '1' '2' '3' 'm' (by decide) (by decide)
    (by decide) (by decide)

/-- C12, at the inputs `"s"` and `"h30m"`: with no digit buffered,
`std::stoi` is called on the empty string and throws `std::invalid_argument`;
no result is returned. -/
theorem C12_empty_field_throws :
    parse_time_str "s" = .invalid_argument ∧ parse_time_str "h30m" = .invalid_argument := by
  decide

/-- C16, at the input `"10m20h"`: both fields raise `upper`, the `else if`
never runs, and `lower` is left at the unset sentinel instead of MIN. -/
theorem C16_ascending_units_lower_unset :
    parse_time_str "10m20h" = .value (72600, { upper := 2, lower := INT32_MAX }) ∧
      precision_t.ofOrd INT32_MAX = none := by
  decide

/-! ## The seconds of an accepted input -/

theorem parse_loop_sec : ∀ (cs : List Char) (st st' : ParseState),
    (∀ d ∈ st.buffer, d.isDigit = true) → st.sec < 4294967296 →
    parse_loop cs st = .value st' →
    st'.sec = (st.sec + totalSeconds (fieldsOf cs st.buffer)) % 4294967296
  | [], st, st', _, hsec, h => by
    rw [parse_loop] at h
    cases h
    rw [fieldsOf, totalSeconds, Nat.add_zero, Nat.mod_eq_of_lt hsec]
  | c :: cs, st, st', hdig, hsec, h => by
    rw [parse_loop] at h
    obtain ⟨st1, h1, h2⟩ := Outcome.bind_eq_value _ _ _ h
    rcases parse_step_value st st1 c hdig h1 with ⟨hd, _, _, rfl⟩ | ⟨hu, _, _, rfl⟩
    · have ih := parse_loop_sec cs { st with buffer := st.buffer ++ [c] } st' (by
        intro d hm
        rcases List.mem_append.mp hm with hm | hm
        · exact hdig d hm
        · rw [List.mem_singleton] at hm
          rw [hm]
          exact hd) hsec h2
      rw [fieldsOf, if_pos hd]
      exact ih
    · have hnd : ¬ c.isDigit = true := by rw [isUnit_not_digit c hu]; decide
      have hc : (commit st { digits := st.buffer, unit := c }).sec =
          (st.sec + Field.seconds { digits := st.buffer, unit := c }) % 4294967296 := rfl
      have ih := parse_loop_sec cs _ st' (by intro d hm; cases hm)
        (by rw [hc]; exact Nat.mod_lt _ (by decide)) h2
      rw [fieldsOf, if_neg hnd, totalSeconds, ih, hc]
      have hb : (commit st { digits := st.buffer, unit := c }).buffer = [] := rfl
      rw [hb]
      omega

theorem parse_loop_fields : ∀ (cs : List Char) (st st' : ParseState), BufOK st.buffer →
    parse_loop cs st = .value st' →
    ∀ f ∈ fieldsOf cs st.buffer, isUnit f.unit = true ∧ decimalValue f.digits < 60
  | [], st, st', _, _ => by
    intro f hf
    rw [fieldsOf] at hf
    cases hf
  | c :: cs, st, st', hbuf, h => by
    rw [parse_loop] at h
    obtain ⟨st1, h1, h2⟩ := Outcome.bind_eq_value _ _ _ h
    have hinv1 : BufOK st1.buffer := parse_step_bufOK st st1 c hbuf h1
    rcases parse_step_value st st1 c hbuf.2.1 h1 with ⟨hd, _, _, rfl⟩ | ⟨hu, hl, _, rfl⟩
    · rw [fieldsOf, if_pos hd]
      exact parse_loop_fields cs _ st' hinv1 h2
    · have hnd : ¬ c.isDigit = true := by rw [isUnit_not_digit c hu]; decide
      rw [fieldsOf, if_neg hnd]
      intro f hf
      rcases List.mem_cons.mp hf with hf | hf
      · rw [hf]
        exact ⟨hu, decimalValue_lt_60 st.buffer hl hbuf.2.1 hbuf.2.2⟩
      · exact parse_loop_fields cs _ st' hinv1 h2 f hf

theorem digit_ne_unit (c u : Char) (hd : c.isDigit = true) (hu : isUnit u = true) : c ≠ u := by
  intro h
  rw [h, isUnit_not_digit u hu] at hd
  cases hd

theorem totalSeconds_le_counts : ∀ (cs cur : List Char),
    (∀ f ∈ fieldsOf cs cur, isUnit f.unit = true ∧ decimalValue f.digits < 60) →
    totalSeconds (fieldsOf cs cur) ≤
      59 * (cs.count 's' + 60 * cs.count 'm' + 3600 * cs.count 'h')
  | [], cur, _ => by rw [fieldsOf, totalSeconds]; exact Nat.zero_le _
  | c :: cs, cur, hall => by
    by_cases hd : c.isDigit = true
    · rw [fieldsOf, if_pos hd] at hall ⊢
      have ih := totalSeconds_le_counts cs (cur ++ [c]) hall
      rw [List.count_cons_of_ne (digit_ne_unit c 's' hd (by decide)).symm,
        List.count_cons_of_ne (digit_ne_unit c 'm' hd (by decide)).symm,
        List.count_cons_of_ne (digit_ne_unit c 'h' hd (by decide)).symm]
      exact ih
    · rw [fieldsOf, if_neg hd] at hall ⊢
      have ih := totalSeconds_le_counts cs [] (fun f hf => hall f (List.mem_cons_of_mem _ hf))
      obtain ⟨hu, hv⟩ := hall _ (List.mem_cons_self _ _)
      simp only at hu hv
      have hv' : decimalValue cur ≤ 59 := by omega
      rw [totalSeconds]
      unfold Field.seconds
      simp only
      rcases (isUnit_iff c).mp hu with rfl | rfl | rfl
      · have hm : unitMult 's' = 1 := by decide
        rw [hm, List.count_cons_self, List.count_cons_of_ne (by decide),
          List.count_cons_of_ne (by decide)]
        omega
      · have hm : unitMult 'm' = 60 := by decide
        rw [hm, List.count_cons_self, List.count_cons_of_ne (by decide),
          List.count_cons_of_ne (by decide)]
        omega
      · have hm : unitMult 'h' = 3600 := by decide
        rw [hm, List.count_cons_self, List.count_cons_of_ne (by decide),
          List.count_cons_of_ne (by decide)]
        omega

/-- C17: in every input accepted by `parse_time_str` every field (the digits
committed at a unit character) has a value below 60, and the returned seconds
are the sum of the fields' seconds modulo `2^32`; when each of `s`, `m`, `h`
occurs at most once that sum is at most 215999, so nothing wraps. -/
theorem C17_field_values_bounded (s : String) (sec : Nat) (fmt : timefmt_t)
    (h : parse_time_str s = .value (sec, fmt)) :
    (∀ f ∈ fieldsOf s.data [], isUnit f.unit = true ∧ decimalValue f.digits < 60) ∧
      sec = totalSeconds (fieldsOf s.data []) % 4294967296 ∧
      (s.data.count 's' ≤ 1 → s.data.count 'm' ≤ 1 → s.data.count 'h' ≤ 1 →
        sec = totalSeconds (fieldsOf s.data []) ∧ sec ≤ 215999) := by
  obtain ⟨st, h1, rfl, _, _⟩ := parse_time_str_value s sec fmt h
  have hf := parse_loop_fields s.data parse_init st parse_init_inv.2.2.2 h1
  have hs := parse_loop_sec s.data parse_init st (by intro d hd; cases hd) (by decide) h1
  have hb : parse_init.buffer = [] := rfl
  have h0 : parse_init.sec = 0 := rfl
  rw [hb] at hf hs
  rw [h0, Nat.zero_add] at hs
  refine ⟨hf, hs, ?_⟩
  intro cs cm ch
  have hle := totalSeconds_le_counts s.data [] hf
  have hT : totalSeconds (fieldsOf s.data []) ≤ 215999 := by omega
  rw [hs, Nat.mod_eq_of_lt (by omega)]
  exact ⟨rfl, hT⟩

/-- C17 at the literal `"59h59m59s"`. -/
theorem C17_field_values_bounded_witness :
    (∀ f ∈ fieldsOf "59h59m59s".data [], isUnit f.unit = true ∧ decimalValue f.digits < 60) ∧
      215999 = totalSeconds (fieldsOf "59h59m59s".data []) % 4294967296 ∧
      ("59h59m59s".data.count 's' ≤ 1 → "59h59m59s".data.count 'm' ≤ 1 →
        "59h59m59s".data.count 'h' ≤ 1 →
        215999 = totalSeconds (fieldsOf "59h59m59s".data []) ∧ 215999 ≤ 215999) :=
  C17_field_values_bounded "59h59m59s" 215999 ⟨2, 0⟩ (by decide)

/-! ## Trailing digits and concatenation -/

theorem parse_loop_ends_unit (pre : List Char) (u : Char) (st st' : ParseState)
    (hinv : ParseInv st) (hu : isUnit u = true)
    (h : parse_loop (pre ++ [u]) st = .value st') : st'.buffer = [] := by
  rw [parse_loop_append] at h
  obtain ⟨st1, h1, h2⟩ := Outcome.bind_eq_value _ _ _ h
  rw [parse_loop] at h2
  obtain ⟨st2, h3, h4⟩ := Outcome.bind_eq_value _ _ _ h2
  rw [parse_loop] at h4
  cases h4
  have hinv1 := parse_loop_inv pre st st1 hinv h1
  rcases parse_step_value st1 _ u hinv1.2.2.2.2.1 h3 with ⟨hd, _, _, _⟩ | ⟨_, _, _, he⟩
  · rw [isUnit_not_digit u hu] at hd
    cases hd
  · rw [he]
    rfl

theorem parse_loop_trailing_digits (d : List Char) (st : ParseState) (hb : st.buffer = [])
    (h1 : 1 ≤ d.length) (h3 : d.length ≤ 3) (hdig : ∀ c ∈ d, c.isDigit = true)
    (hlead : ∀ c ∈ d.head?, c ≤ '5') :
    parse_loop d st = .value { st with buffer := d } := by
  match d, h1, h3, hdig, hlead with
  | [], h1, _, _, _ => simp at h1
  | [x], _, _, hdig, hlead =>
    rw [parse_loop, parse_step_digit st x (hdig x (by simp)) (by rw [hb]; decide)
      (fun _ => char_not_gt (hlead x (by simp))), Outcome.bind_value, parse_loop, hb]
    rfl
  | [x, y], _, _, hdig, hlead =>
    rw [parse_loop, parse_step_digit st x (hdig x (by simp)) (by rw [hb]; decide)
      (fun _ => char_not_gt (hlead x (by simp))), Outcome.bind_value, parse_loop,
      parse_step_digit _ y (hdig y (by simp)) (by simp [hb]) (by simp [hb]),
      Outcome.bind_value, parse_loop, hb]
    rfl
  | [x, y, z], _, _, hdig, hlead =>
    rw [parse_loop, parse_step_digit st x (hdig x (by simp)) (by rw [hb]; decide)
      (fun _ => char_not_gt (hlead x (by simp))), Outcome.bind_value, parse_loop,
      parse_step_digit _ y (hdig y (by simp)) (by simp [hb]) (by simp [hb]),
      Outcome.bind_value, parse_loop,
      parse_step_digit _ z (hdig z (by simp)) (by simp [hb]) (by simp [hb]),
      Outcome.bind_value, parse_loop, hb]
    rfl
  | _ :: _ :: _ :: _ :: _, _, h3, _, _ => simp at h3

theorem parse_loop_final_buffer (a : String) (st : ParseState)
    (h : parse_loop a.data parse_init = .value st)
    (hend : a.data = [] ∨ ∃ pre u, a.data = pre ++ [u] ∧ isUnit u = true) :
    st.buffer = [] := by
  rcases hend with he | ⟨pre, u, he, hu⟩
  · rw [he, parse_loop] at h
    cases h
    rfl
  · rw [he] at h
    exact parse_loop_ends_unit pre u parse_init st parse_init_inv hu h

/-- C18: digits after the last unit character are dropped: when `a` is empty
or an accepted literal that ends in a unit character, and `d` is a run of one
to three digits whose first digit is at most `'5'`, `parse_time_str (a ++ d)`
returns the same seconds, `upper` and `lower` as `parse_time_str a`;
`"1h30"` gives 3600 seconds and `"25"` gives 0 seconds. -/
theorem C18_trailing_digits_dropped (a : String) (d : List Char) (r : Nat × timefmt_t)
    (hacc : parse_time_str a = .value r)
    (hend : a.data = [] ∨ ∃ pre u, a.data = pre ++ [u] ∧ isUnit u = true)
    (h1 : 1 ≤ d.length) (h3 : d.length ≤ 3) (hdig : ∀ c ∈ d, c.isDigit = true)
    (hlead : ∀ c ∈ d.head?, c ≤ '5') :
    parse_time_str (a ++ ⟨d⟩) = .value r ∧
      parse_time_str "1h30" = .value (3600, { upper := 2, lower := INT32_MAX }) ∧
      parse_time_str "25" = .value (0, { upper := 0, lower := INT32_MAX }) := by
  refine ⟨?_, by decide, by decide⟩
  obtain ⟨sec, fmt⟩ := r
  obtain ⟨st, hst, hs, hu, hl⟩ := parse_time_str_value a sec fmt hacc
  have hb := parse_loop_final_buffer a st hst hend
  have hd : (a ++ (⟨d⟩ : String)).data = a.data ++ d := rfl
  unfold parse_time_str
  rw [hd, parse_loop_append]
  unfold parse_init at hst
  rw [hst, Outcome.bind_value, parse_loop_trailing_digits d st hb h1 h3 hdig hlead,
    Outcome.bind_value]
  simp only [hs, hu, hl]

/-- C18 at `a = "1h"`, `d = "123"`. -/
theorem C18_trailing_digits_dropped_witness :
    parse_time_str ("1h" ++ ⟨['1', '2', '3']⟩) =
        .value (3600, { upper := 2, lower := INT32_MAX }) ∧
      parse_time_str "1h30" = .value (3600, { upper := 2, lower := INT32_MAX }) ∧
      parse_time_str "25" = .value (0, { upper := 0, lower := INT32_MAX }) :=
  C18_trailing_digits_dropped "1h" ['1', '2', '3'] (3600, ⟨2, INT32_MAX⟩) (by decide)
    (Or.inr ⟨['1'], 'h', rfl, rfl⟩) (by decide) (by decide) (by decide) (by decide)

theorem parse_loop_transfer : ∀ (cs : List Char) (st1 st2 r2 : ParseState),
    st1.buffer = st2.buffer → (∀ d ∈ st2.buffer, d.isDigit = true) →
    parse_loop cs st2 = .value r2 → ∃ r1, parse_loop cs st1 = .value r1
  | [], st1, _, _, _, _, _ => ⟨st1, by rw [parse_loop]⟩
  | c :: cs, st1, st2, r2, hb, hdig, h => by
    rw [parse_loop] at h
    obtain ⟨st3, h1, h2⟩ := Outcome.bind_eq_value _ _ _ h
    rcases parse_step_value st2 st3 c hdig h1 with ⟨hd, hl, hlead, rfl⟩ | ⟨hu, hl, hne, rfl⟩
    · have hdig' : ∀ d ∈ st2.buffer ++ [c], d.isDigit = true := by
        intro d hm
        rcases List.mem_append.mp hm with hm | hm
        · exact hdig d hm
        · rw [List.mem_singleton] at hm
          rw [hm]
          exact hd
      obtain ⟨r1, hr1⟩ := parse_loop_transfer cs { st1 with buffer := st1.buffer ++ [c] }
        { st2 with buffer := st2.buffer ++ [c] } r2 (by simp only [hb]) hdig' h2
      refine ⟨r1, ?_⟩
      rw [parse_loop, parse_step_digit st1 c hd (by rw [hb]; exact hl)
        (by rw [hb]; exact hlead), Outcome.bind_value]
      exact hr1
    · obtain ⟨r1, hr1⟩ := parse_loop_transfer cs
        (commit st1 { digits := st1.buffer, unit := c })
        (commit st2 { digits := st2.buffer, unit := c }) r2 rfl
        (by intro d hm; cases hm) h2
      refine ⟨r1, ?_⟩
      rw [parse_loop, parse_step_unit st1 c hu (by rw [hb]; exact hl)
        (by rw [hb]; exact hne) (by rw [hb]; exact hdig), Outcome.bind_value]
      exact hr1

theorem totalSeconds_perm (fs gs : List Field) (h : fs.Perm gs) :
    totalSeconds fs = totalSeconds gs := by
  induction h with
  | nil => rfl
  | cons x _ ih => rw [totalSeconds, totalSeconds, ih]
  | swap x y l => simp only [totalSeconds]; omega
  | trans _ _ ih1 ih2 => rw [ih1, ih2]

/-- C19: when `a` is an accepted literal that ends in a unit character and
`b` is an accepted literal, `parse_time_str (a ++ b)` returns a result whose
seconds are `seconds(a) + seconds(b)` modulo `2^32`; and two literals made of
the same well-formed fields in different orders parse to the same seconds. -/
theorem C19_seconds_additive (a b : String) (sa sb : Nat) (fa fb : timefmt_t)
    (ha : parse_time_str a = .value (sa, fa)) (hb : parse_time_str b = .value (sb, fb))
    (hend : ∃ pre u, a.data = pre ++ [u] ∧ isUnit u = true) :
    (∃ fmt, parse_time_str (a ++ b) = .value (add32 sa sb, fmt)) ∧
      ∀ fs gs : List Field, fs.Perm gs → (∀ f ∈ fs, f.wf = true) →
        ∃ n fmt fmt', parse_time_str (literal fs) = .value (n, fmt) ∧
          parse_time_str (literal gs) = .value (n, fmt') := by
  constructor
  · obtain ⟨sta, hsta, hsa, _, _⟩ := parse_time_str_value a sa fa ha
    obtain ⟨stb, hstb, hsb, _, _⟩ := parse_time_str_value b sb fb hb
    have hbuf := parse_loop_final_buffer a sta hsta (Or.inr hend)
    have hinva := parse_loop_inv _ _ _ parse_init_inv hsta
    obtain ⟨r, hr⟩ := parse_loop_transfer b.data sta parse_init stb hbuf
      (by intro d hd; cases hd) hstb
    have hsr := parse_loop_sec b.data sta r (by rw [hbuf]; intro d hd; cases hd) hinva.1 hr
    have hsb2 := parse_loop_sec b.data parse_init stb (by intro d hd; cases hd)
      (by decide) hstb
    have h0 : parse_init.sec = 0 := rfl
    have hb0 : parse_init.buffer = [] := rfl
    rw [hbuf] at hsr
    rw [h0, hb0, Nat.zero_add] at hsb2
    refine ⟨{ upper := r.upper, lower := r.lower }, ?_⟩
    have hd : (a ++ b).data = a.data ++ b.data := rfl
    unfold parse_time_str
    rw [hd, parse_loop_append]
    unfold parse_init at hsta
    rw [hsta, Outcome.bind_value, hr, Outcome.bind_value]
    have : r.sec = add32 sa sb := by
      rw [hsr, ← hsa, ← hsb, hsb2]
      unfold add32
      omega
    rw [this]
  · intro fs gs hperm hwf
    have hwf' : ∀ f ∈ gs, f.wf = true := fun f hf => hwf f (hperm.mem_iff.mpr hf)
    exact ⟨_, _, _, parse_time_str_literal fs hwf, by
      rw [totalSeconds_perm fs gs hperm]
      exact parse_time_str_literal gs hwf'⟩

/-- C19 at `a = "1h30m"`, `b = "20s"`. -/
theorem C19_seconds_additive_witness :
    (∃ fmt, parse_time_str ("1h30m" ++ "20s") = .value (add32 5400 20, fmt)) ∧
      ∀ fs gs : List Field, fs.Perm gs → (∀ f ∈ fs, f.wf = true) →
        ∃ n fmt fmt', parse_time_str (literal fs) = .value (n, fmt) ∧
          parse_time_str (literal gs) = .value (n, fmt') :=
  C19_seconds_additive "1h30m" "20s" 5400 20 ⟨2, 1⟩ ⟨0, 0⟩ (by decide) (by decide)
    ⟨['1', 'h', '3', '0'], 'm', rfl, rfl⟩

/-! ## What holds of rejected characters when `std::stoi` does not throw -/

theorem parse_time_str_reject_after (pre rest : List Char)
    (hpre : parse_time_str ⟨pre⟩ ≠ .invalid_argument)
    (hrest : ∀ st, parse_loop pre parse_init = .value st → parse_loop rest st = .nullopt) :
    parse_time_str ⟨pre ++ rest⟩ = .nullopt := by
  unfold parse_time_str at hpre ⊢
  simp only at hpre ⊢
  rw [parse_loop_append]
  cases hp : parse_loop pre { buffer := [], sec := 0, upper := 0, lower := INT32_MAX } with
  | value st => rw [Outcome.bind_value, hrest st hp, Outcome.bind]
  | nullopt => simp only [Outcome.bind]
  | invalid_argument =>
    rw [hp] at hpre
    simp only [Outcome.bind] at hpre
    exact absurd rfl hpre
  | undefined => exact absurd hp (parse_loop_ne_undefined pre _)

/-- A character that is neither a digit nor a unit makes
`parse_time_str` return no result, wherever it stands, as long as
`std::stoi` did not throw in the text before it. -/
theorem parse_bad_char_guarded (pre post : List Char) (c : Char) (hd : c.isDigit = false)
    (hu : isUnit c = false) (hpre : parse_time_str ⟨pre⟩ ≠ .invalid_argument) :
    parse_time_str ⟨pre ++ c :: post⟩ = .nullopt := by
  apply parse_time_str_reject_after pre (c :: post) hpre
  intro st _
  rw [parse_loop, parse_step_other st c hd (Or.inr hu), Outcome.bind]

/-- A digit above `'5'` at the start of the input or right
after a unit character makes `parse_time_str` return no result, as long as
`std::stoi` did not throw in the text before it. -/
theorem parse_lead_digit_guarded (pre post : List Char) (c : Char) (hd : c.isDigit = true)
    (h5 : c > '5') (hend : pre = [] ∨ ∃ p u, pre = p ++ [u] ∧ isUnit u = true)
    (hpre : parse_time_str ⟨pre⟩ ≠ .invalid_argument) :
    parse_time_str ⟨pre ++ c :: post⟩ = .nullopt := by
  apply parse_time_str_reject_after pre (c :: post) hpre
  intro st hst
  have hb : st.buffer = [] := parse_loop_final_buffer ⟨pre⟩ st hst hend
  rw [parse_loop, parse_step_digit_reject st c hd (Or.inr ⟨by rw [hb]; rfl, h5⟩), Outcome.bind]
